import Mathlib

/-!
# Verification of the YuriCypher pipeline and module catalog

A shallow embedding, in Lean 4, of the pipeline execution model and the
transform-module catalog of the YuriCypher repository (`src/pipeline.rs`,
`src/module.rs`, `src/modules/*.rs`).

Conventions of the embedding:

* Rust `String` / `&str` values are Lean `String`s; per-character processing
  (`input.chars()`) works on `String.toList`.
* Rust byte slices (`input.as_bytes()`) are `List Nat` of UTF-8 bytes.
* Machine integers are modelled as `Nat`/`Int`; where the Rust code relies on
  wrapping (`wrapping_add`, release-mode overflow) the reduction `% 256`,
  `% 2^32`, ... is explicit.  `rem_euclid` is `Int.emod` (written `%` on `Int`),
  Rust's truncating `/` on `i32` is `Int.tdiv`.
* A Rust panic (out-of-range `Vec` indexing, `x % 0`) is modelled by `Option`:
  `none` is a panic, `some s` a normally returned string.
* External crates (egui, base64, data-encoding, idna, aes/cbc, md5, sha2, hex)
  and Unicode tables from `std` are out of scope for the repository per its
  design; they are modelled at their interface by total stand-in functions,
  each marked in its doc comment.

The rendering layer of `Pipeline::ui` is not modelled; what is modelled is the
data flow it performs each frame: the left fold of `input_text` through
`Module::process` (function `evaluate`), and the structural-edit batch applied
after the loop (function `applyEdits`).
-/

namespace YuriCypher

/-! ## Byte and string helpers -/

/-- UTF-8 encoding of one character (Rust `str::as_bytes` works on the UTF-8
representation of the string). -/
def utf8Bytes (c : Char) : List Nat :=
  let n := c.toNat
  if n < 0x80 then [n]
  else if n < 0x800 then [0xC0 + n / 64, 0x80 + n % 64]
  else if n < 0x10000 then [0xE0 + n / 4096, 0x80 + n / 64 % 64, 0x80 + n % 64]
  else [0xF0 + n / 262144, 0x80 + n / 4096 % 64, 0x80 + n / 64 % 64, 0x80 + n % 64]

/-- The UTF-8 bytes of a string: Rust `s.as_bytes()` / `s.bytes()`. -/
def strBytes (s : String) : List Nat :=
  s.toList.flatMap utf8Bytes

/-- One step of a lossy UTF-8 decoder: decodes the first scalar value of the
byte list, or yields U+FFFD for an invalid sequence, and returns the rest. -/
def utf8DecodeStep (b : Nat) (rest : List Nat) : Char × List Nat :=
  let cont := fun (x : Nat) => 0x80 ≤ x ∧ x < 0xC0
  if b < 0x80 then (Char.ofNat b, rest)
  else if 0xC2 ≤ b ∧ b < 0xE0 then
    match rest with
    | b2 :: r2 =>
      if cont b2 then (Char.ofNat ((b - 0xC0) * 64 + (b2 - 0x80)), r2)
      else ('�', rest)
    | [] => ('�', rest)
  else if 0xE0 ≤ b ∧ b < 0xF0 then
    match rest with
    | b2 :: b3 :: r3 =>
      if cont b2 ∧ cont b3 then
        let n := (b - 0xE0) * 4096 + (b2 - 0x80) * 64 + (b3 - 0x80)
        if 0x800 ≤ n ∧ Nat.isValidChar n then (Char.ofNat n, r3) else ('�', rest)
      else ('�', rest)
    | _ => ('�', rest)
  else if 0xF0 ≤ b ∧ b < 0xF5 then
    match rest with
    | b2 :: b3 :: b4 :: r4 =>
      if cont b2 ∧ cont b3 ∧ cont b4 then
        let n := (b - 0xF0) * 262144 + (b2 - 0x80) * 4096 + (b3 - 0x80) * 64 + (b4 - 0x80)
        if 0x10000 ≤ n ∧ Nat.isValidChar n then (Char.ofNat n, r4) else ('�', rest)
      else ('�', rest)
    | _ => ('�', rest)
  else ('�', rest)

/-- Fuel-driven loop of the lossy UTF-8 decoder; the fuel is an upper bound on
the byte count (each step consumes at least one byte). -/
def utf8DecodeGo : Nat → List Nat → List Char
  | 0, _ => []
  | _, [] => []
  | fuel + 1, b :: rest =>
    let (c, r) := utf8DecodeStep b rest
    c :: utf8DecodeGo fuel r

/-- Modelled from the spec: Rust `String::from_utf8_lossy` (std, external to the
repository) — decodes UTF-8, replacing invalid sequences with U+FFFD.  Exact on
ASCII and on well-formed UTF-8, which is all the repository's claims exercise. -/
def fromUtf8Lossy (bytes : List Nat) : String :=
  String.mk (utf8DecodeGo bytes.length bytes)

/-- Modelled from the spec: Rust `str::to_uppercase` (std Unicode case mapping,
external to the repository).  Modelled as per-character ASCII uppercasing,
which agrees with std on ASCII input. -/
def rustToUppercase (s : String) : String :=
  String.mk (s.toList.map Char.toUpper)

/-- Modelled from the spec: Rust `str::to_lowercase` (std Unicode case mapping,
external to the repository).  Modelled as per-character ASCII lowercasing. -/
def rustToLowercase (s : String) : String :=
  String.mk (s.toList.map Char.toLower)

/-- Rust `str::split_whitespace`: whitespace-separated fragments, no empties. -/
def splitWhitespace (s : String) : List String :=
  (s.split (·.isWhitespace)).filter (· ≠ "")

/-- The numeric value of a digit character for `char::to_digit(radix)`. -/
def digitVal (c : Char) : Option Nat :=
  if '0' ≤ c ∧ c ≤ '9' then some (c.toNat - '0'.toNat)
  else if 'a' ≤ c ∧ c ≤ 'z' then some (c.toNat - 'a'.toNat + 10)
  else if 'A' ≤ c ∧ c ≤ 'Z' then some (c.toNat - 'A'.toNat + 10)
  else none

/-- Parse an unsigned integer in the given radix, all characters must be valid
digits and the list must be non-empty (Rust `from_str_radix` digit loop). -/
def parseNatRadix (radix : Nat) (cs : List Char) : Option Nat :=
  if cs = [] then none
  else cs.foldl (fun acc c =>
    acc.bind (fun n => (digitVal c).bind (fun d =>
      if d < radix then some (n * radix + d) else none))) (some 0)

/-- Rust `i64::from_str_radix` / `str::parse::<i64>`: optional sign, digits in
the radix, result must fit in `i64`. -/
def parseIntRadix (radix : Nat) (s : String) : Option Int :=
  let (sign, digits) : Int × List Char :=
    match s.toList with
    | '+' :: rest => (1, rest)
    | '-' :: rest => (-1, rest)
    | l => (1, l)
  (parseNatRadix radix digits).bind (fun n =>
    let v : Int := sign * (n : Int)
    if -(2 ^ 63) ≤ v ∧ v < 2 ^ 63 then some v else none)

/-- Rust `str::parse::<u8>`: optional `+`, decimal digits, bounded by 256. -/
def parseU8 (s : String) : Option Nat :=
  let digits : List Char :=
    match s.toList with
    | '+' :: rest => rest
    | l => l
  (parseNatRadix 10 digits).bind (fun n => if n < 256 then some n else none)

/-- Rust `str::parse::<usize>`: optional `+`, decimal digits, bounded by 2^64. -/
def parseUsize (s : String) : Option Nat :=
  let digits : List Char :=
    match s.toList with
    | '+' :: rest => rest
    | l => l
  (parseNatRadix 10 digits).bind (fun n => if n < 2 ^ 64 then some n else none)

/-- Digits of `n` in base `b`, most significant first (`Nat.toDigits`). -/
def natToBase (b n : Nat) : String :=
  String.mk (Nat.toDigits b n)

/-- Rust `format!("{:0w b}", n)`-style zero-padded binary of a byte value. -/
def fmtBinPad (width n : Nat) : String :=
  let ds := Nat.toDigits 2 n
  String.mk (List.replicate (width - ds.length) '0' ++ ds)

/-- Rust `format!("{:0w X}", n)`-style zero-padded uppercase hex. -/
def fmtHexPadUpper (width n : Nat) : String :=
  let ds := (Nat.toDigits 16 n).map Char.toUpper
  String.mk (List.replicate (width - ds.length) '0' ++ ds)

/-- Lowercase hex with zero-padding to `width` digits. -/
def fmtHexPadLower (width n : Nat) : String :=
  let ds := Nat.toDigits 16 n
  String.mk (List.replicate (width - ds.length) '0' ++ ds)

/-- Modelled from the spec: `hex::encode` (external `hex` crate) — two
lowercase hex digits per byte. -/
def hexEncode (bytes : List Nat) : String :=
  String.join (bytes.map (fmtHexPadLower 2))

/-- One pass of `hex::decode`: pairs of hex digits to bytes; `none` on an odd
length or an invalid digit.  Modelled from the spec: external `hex` crate. -/
def hexDecode : List Char → Option (List Nat)
  | [] => some []
  | [_] => none
  | c1 :: c2 :: rest =>
    (digitVal c1).bind (fun d1 =>
      (digitVal c2).bind (fun d2 =>
        if d1 < 16 ∧ d2 < 16 then
          (hexDecode rest).map (fun bs => (d1 * 16 + d2) :: bs)
        else none))

/-- Chunks of at most `n` elements, as Rust `slice::chunks(n)` (the final chunk
may be shorter).  `n` is expected positive; the guard keeps the recursion
well-founded for `n = 0`. -/
def chunksOf (n : Nat) : List α → List (List α)
  | [] => []
  | a :: l =>
    if h : n = 0 then []
    else
      have : ((a :: l).drop n).length < (a :: l).length := by
        simp only [List.length_drop, List.length_cons]
        omega
      (a :: l).take n :: chunksOf n ((a :: l).drop n)
termination_by l => l.length

/-- List-level loop of Rust `str::trim_start_matches`: repeatedly strip a
leading occurrence of `pat` (the head test is written as a `take`-equality). -/
def trimStartMatchesL (pat s : List Char) : List Char :=
  if h : pat = [] then s
  else if hp : s.take pat.length = pat then
    have hle : pat.length ≤ s.length := by
      have hlen := congrArg List.length hp
      simp only [List.length_take] at hlen
      omega
    have hpos : 0 < pat.length := List.length_pos.mpr h
    have : (s.drop pat.length).length < s.length := by
      simp only [List.length_drop]
      omega
    trimStartMatchesL pat (s.drop pat.length)
  else s
termination_by s.length

/-- Rust `str::trim_start_matches`. -/
def trimStartMatches (pat s : String) : String :=
  String.mk (trimStartMatchesL pat.toList s.toList)

/-- Repeatedly strip a trailing occurrence of `pat`: Rust
`str::trim_end_matches`. -/
def trimEndMatches (pat s : String) : String :=
  String.mk ((trimStartMatches (String.mk pat.toList.reverse)
    (String.mk s.toList.reverse)).toList.reverse)

/-! ## `src/modules/transform.rs` -/

/-- Rust `ReverseModule::process`. -/
def reverse_process (input : String) : String :=
  String.mk input.toList.reverse

inductive CaseMode where
  | LowerCase
  | UpperCase
  | Capitalize
  | Alternating
deriving DecidableEq, Repr

/-- Rust `CaseTransformModule::process`. -/
def case_transform_process (mode : CaseMode) (input : String) : String :=
  match mode with
  | .LowerCase => rustToLowercase input
  | .UpperCase => rustToUppercase input
  | .Capitalize =>
    String.intercalate " " ((splitWhitespace input).map (fun word =>
      match word.toList with
      | [] => ""
      | f :: rest => String.mk (Char.toUpper f :: rest)))
  | .Alternating =>
    String.mk (input.toList.enum.map (fun p =>
      if p.1 % 2 = 0 then Char.toLower p.2 else Char.toUpper p.2))

/-- Rust `ReplaceModule::process`.  `String.replace` models Rust `str::replace`
(leftmost, non-overlapping occurrences). -/
def replace_process (find replaceWith : String) (input : String) : String :=
  if find = "" then input else input.replace find replaceWith

inductive NumeralSystem where
  | Decimal
  | Binary
  | Octal
  | Hexadecimal
deriving DecidableEq, Repr

/-- Radix of a `NumeralSystem`. -/
def NumeralSystem.radix : NumeralSystem → Nat
  | .Decimal => 10
  | .Binary => 2
  | .Octal => 8
  | .Hexadecimal => 16

/-- Rust `format!` of an `i64` in a numeral system: `{}` is signed decimal, while
`{:b}` / `{:o}` / `{:x}` print the two's-complement bit pattern. -/
def formatI64 (sys : NumeralSystem) (v : Int) : String :=
  match sys with
  | .Decimal => toString v
  | .Binary => natToBase 2 (v % 2 ^ 64).toNat
  | .Octal => natToBase 8 (v % 2 ^ 64).toNat
  | .Hexadecimal => natToBase 16 (v % 2 ^ 64).toNat

/-- Rust `NumeralSystemModule::process` (fields `from` and `to` of the Rust struct
are `fromSys` and `toSys` here: `from` is a Lean keyword). -/
def numeral_process (fromSys toSys : NumeralSystem) (input : String) : String :=
  String.intercalate " " ((splitWhitespace input).map (fun s =>
    match parseIntRadix fromSys.radix s with
    | some v => formatI64 toSys v
    | none => s))

inductive BitwiseOp where
  | NOT
  | AND
  | OR
  | XOR
  | NAND
  | NOR
  | XNOR
deriving DecidableEq, Repr

/-- One byte under a `BitwiseOp` with the given operand (u8 semantics: `!b` is
the complement in 8 bits). -/
def bitwiseByte (op : BitwiseOp) (operand b : Nat) : Nat :=
  match op with
  | .NOT => 255 - b % 256
  | .AND => (b % 256).land operand
  | .OR => (b % 256).lor operand
  | .XOR => (b % 256).xor operand
  | .NAND => 255 - (b % 256).land operand
  | .NOR => 255 - (b % 256).lor operand
  | .XNOR => 255 - (b % 256).xor operand

/-- Rust `BitwiseOperationModule::process`. -/
def bitwise_process (op : BitwiseOp) (operand : String) (input : String) : String :=
  let operand_val := (parseU8 operand).getD 0
  fromUtf8Lossy ((strBytes input).map (bitwiseByte op operand_val))

/-! ## `src/modules/alphabet.rs` -/

/-- The `MORSE_CODE` table. -/
def MORSE_CODE : List (Char × String) :=
  [('A', ".-"), ('B', "-..."), ('C', "-.-."), ('D', "-.."), ('E', "."),
   ('F', "..-."), ('G', "--."), ('H', "...."), ('I', ".."), ('J', ".---"),
   ('K', "-.-"), ('L', ".-.."), ('M', "--"), ('N', "-."), ('O', "---"),
   ('P', ".--."), ('Q', "--.-"), ('R', ".-."), ('S', "..."), ('T', "-"),
   ('U', "..-"), ('V', "...-"), ('W', ".--"), ('X', "-..-"), ('Y', "-.--"),
   ('Z', "--.."), ('1', ".----"), ('2', "..---"), ('3', "...--"),
   ('4', "....-"), ('5', "....."), ('6', "-...."), ('7', "--..."),
   ('8', "---.."), ('9', "----."), ('0', "-----")]

/-- The derived `REVERSE_MORSE_CODE` table. -/
def REVERSE_MORSE_CODE : List (String × Char) :=
  MORSE_CODE.map (fun p => (p.2, p.1))

/-- The `NATO_ALPHABET` table. -/
def NATO_ALPHABET : List (Char × String) :=
  [('A', "Alfa"), ('B', "Bravo"), ('C', "Charlie"), ('D', "Delta"),
   ('E', "Echo"), ('F', "Foxtrot"), ('G', "Golf"), ('H', "Hotel"),
   ('I', "India"), ('J', "Juliett"), ('K', "Kilo"), ('L', "Lima"),
   ('M', "Mike"), ('N', "November"), ('O', "Oscar"), ('P', "Papa"),
   ('Q', "Quebec"), ('R', "Romeo"), ('S', "Sierra"), ('T', "Tango"),
   ('U', "Uniform"), ('V', "Victor"), ('W', "Whiskey"), ('X', "X-ray"),
   ('Y', "Yankee"), ('Z', "Zulu")]

inductive Direction where
  | Encode
  | Decode
deriving DecidableEq, Repr

/-- Rust `MorseCodeModule::process`. -/
def morse_process (direction : Direction) (input : String) : String :=
  match direction with
  | .Encode =>
    String.intercalate " " ((rustToUppercase input).toList.map (fun c =>
      ((MORSE_CODE.lookup c).getD " ")))
  | .Decode =>
    String.mk ((splitWhitespace input).map (fun s =>
      ((REVERSE_MORSE_CODE.lookup s).getD ' ')))

/-- Rust `SpellingAlphabetModule::process`. -/
def spelling_process (input : String) : String :=
  String.intercalate " " ((rustToUppercase input).toList.map (fun c =>
    ((NATO_ALPHABET.lookup c).getD " ")))

/-! ## `src/modules/cipher.rs` -/

inductive CipherMode where
  | Encode
  | Decode
deriving DecidableEq, Repr

inductive A1Z26Mode where
  | Encode
  | Decode
deriving DecidableEq, Repr

/-- The per-character map of `CaesarCipherModule::process` with the reduced
shift (a `u8` in the Rust code). -/
def caesarShiftChar (shift : Nat) (c : Char) : Char :=
  if c.isAlpha then
    let base := if c.isLower then 'a'.toNat else 'A'.toNat
    let offset := c.toNat - base
    Char.ofNat (base + (offset + shift) % 26)
  else c

/-- Rust `CaesarCipherModule::process`: the configured `shift` is an `i32`, reduced
with `rem_euclid(26)` (Encode) or `26 - rem_euclid(26)` (Decode). -/
def caesar_process (shift : Int) (mode : CipherMode) (input : String) : String :=
  let s : Nat :=
    match mode with
    | .Encode => (shift % 26).toNat
    | .Decode => (26 - shift % 26).toNat
  String.mk (input.toList.map (caesarShiftChar s))

/-- Rust `ROT13Module::process` (its own loop in the Rust source, with the literal
shift 13). -/
def rot13_process (input : String) : String :=
  String.mk (input.toList.map (fun c =>
    if c.isAlpha then
      let base := if c.isLower then 'a'.toNat else 'A'.toNat
      Char.ofNat (base + (c.toNat - base + 13) % 26)
    else c))

/-- Rust `A1Z26Module::process`. -/
def a1z26_process (mode : A1Z26Mode) (input : String) : String :=
  match mode with
  | .Encode =>
    String.intercalate "-" (input.toList.filterMap (fun c =>
      if c.isAlpha then
        let base := if c.isLower then 'a'.toNat else 'A'.toNat
        some (toString (c.toNat - base + 1))
      else if c.isWhitespace then some " "
      else none))
  | .Decode =>
    String.mk (((input.split (fun c => ¬ c.isDigit)).filter (· ≠ "")).map (fun s =>
      match parseU8 s with
      | some n => if 1 ≤ n ∧ n ≤ 26 then Char.ofNat ('a'.toNat + n - 1) else '?'
      | none => '?'))

/-- The loop body of `AffineCipherModule::mod_inverse` (extended Euclid); the
fuel bounds the number of iterations, each of which strictly decreases
`|new_r|` for the arguments the module uses. -/
def mod_inverse_go (fuel : Nat) (t new_t r new_r : Int) : Int × Int :=
  match fuel with
  | 0 => (t, r)
  | fuel + 1 =>
    if new_r = 0 then (t, r)
    else
      let quotient := r.tdiv new_r
      mod_inverse_go fuel new_t (t - quotient * new_t) new_r (r - quotient * new_r)

/-- Rust `AffineCipherModule::mod_inverse`. -/
def mod_inverse (a m : Int) : Option Int :=
  let (t, r) := mod_inverse_go (m.natAbs + a.natAbs + 2) 0 1 m a
  if r > 1 then none
  else some (if t < 0 then t + m else t)

/-- The per-character map of the non-error path of
`AffineCipherModule::process`, with `a` and `b` already reduced mod 26. -/
def affineChar (a b : Int) (mode : CipherMode) (c : Char) : Char :=
  if c.isAlpha then
    let base := if c.isLower then 'a'.toNat else 'A'.toNat
    let x : Int := (c.toNat - base : Nat)
    let new_x : Int :=
      match mode with
      | .Encode => (a * x + b) % 26
      | .Decode =>
        let a_inv := (mod_inverse a 26).getD 1
        (a_inv * (x - b)) % 26
    Char.ofNat (base + new_x.toNat)
  else c

/-- The coprimality-error string of `AffineCipherModule::process`
(`format!("Error: 'a' ({}) must be coprime to 26.", a)`). -/
def affineErrorString (a : Int) : String :=
  "Error: 'a' (" ++ toString a ++ ") must be coprime to 26."

/-- Rust `AffineCipherModule::process`. -/
def affine_process (a b : Int) (mode : CipherMode) (input : String) : String :=
  let a := a % 26
  let b := b % 26
  if a % 2 = 0 ∨ a = 13 then affineErrorString a
  else String.mk (input.toList.map (affineChar a b mode))

/-- The character loop of `VigenereCipherModule::process`: `key_idx` advances
only on alphabetic characters. -/
def vigenereGo (key_clean : List Nat) (mode : A1Z26Mode) :
    List Char → Nat → List Char
  | [], _ => []
  | c :: cs, key_idx =>
    if c.isAlpha then
      let base := if c.isLower then 'a'.toNat else 'A'.toNat
      let x := c.toNat - base
      let k := key_clean.getD (key_idx % key_clean.length) 0
      let new_x :=
        match mode with
        | A1Z26Mode.Encode => (x + k) % 26
        | A1Z26Mode.Decode => (x + 26 - k) % 26
      Char.ofNat (base + new_x) :: vigenereGo key_clean mode cs (key_idx + 1)
    else c :: vigenereGo key_clean mode cs key_idx

/-- The filtered, case-folded key of `VigenereCipherModule::process`
(`key_clean` in the Rust source). -/
def vigenereKeyClean (key : String) : List Nat :=
  (key.toList.filter (·.isAlpha)).map (fun c => c.toUpper.toNat - 'A'.toNat)

/-- Rust `VigenereCipherModule::process`. -/
def vigenere_process (key : String) (mode : A1Z26Mode) (input : String) : String :=
  let key_clean := vigenereKeyClean key
  if key_clean.isEmpty then input
  else String.mk (vigenereGo key_clean mode input.toList 0)

/-! ### Rail fence (`RailFenceCipherModule`)

All three loops of `RailFenceCipherModule::process` run the same zigzag state
machine over `(rail, direction)`; `railSeqGo` computes the list of rails it
visits.  The encoder pushes each character onto `fence[rail]` and flattens; the
decoder first marks the zigzag cells (`fence[rail][i] = 1`, i.e. column `i` is
marked exactly on rail `railSeq[i]`), fills the marked cells row-major from the
ciphertext, and reads the zigzag back off. -/

/-- One step of the zigzag state machine: the direction update followed by the
rail move, as in each loop body of `RailFenceCipherModule::process`. -/
def railStep (rails rail : Nat) (direction : Int) : Nat × Int :=
  let direction := if rail = 0 then 1 else if rail = rails - 1 then -1 else direction
  (if direction = 1 then rail + 1 else rail - 1, direction)

/-- The rails visited by `n` steps of the zigzag starting at `(rail, direction)`. -/
def railSeqGo (rails : Nat) : Nat → Nat → Int → List Nat
  | 0, _, _ => []
  | n + 1, rail, direction =>
    let next := railStep rails rail direction
    rail :: railSeqGo rails n next.1 next.2

/-- The rail of each of the `len` positions (all three Rust loops start from
`rail = 0`, `direction = 1`). -/
def railSeq (rails len : Nat) : List Nat :=
  railSeqGo rails len 0 1

/-- The encoder's fence build: push each character onto its rail's bucket. -/
def railEncodeGo (rails : Nat) : List Char → List (List Char) → Nat → Int →
    List (List Char)
  | [], fence, _, _ => fence
  | c :: cs, fence, rail, direction =>
    let fence := fence.set rail (fence.getD rail [] ++ [c])
    let next := railStep rails rail direction
    railEncodeGo rails cs fence next.1 next.2

/-- The row-major fill of one marked row by the decoder: marked cells take
successive ciphertext characters, unmarked cells keep `'\0'`; returns the row
and the unconsumed characters. -/
def railFillRow : List Nat → List Char → List Char × List Char
  | [], cs => ([], cs)
  | m :: ms, cs =>
    if m = 1 then
      match cs with
      | ch :: cs' =>
        let (row, rest) := railFillRow ms cs'
        (ch :: row, rest)
      | [] =>
        let (row, rest) := railFillRow ms []
        ('\x00' :: row, rest)
    else
      let (row, rest) := railFillRow ms cs
      ('\x00' :: row, rest)

/-- The decoder's row-major fill over all rows. -/
def railFillRows : List (List Nat) → List Char → List (List Char)
  | [], _ => []
  | r :: rs, cs =>
    let (row, rest) := railFillRow r cs
    row :: railFillRows rs rest

/-- The decoder's mark matrix: row `r` has a 1 exactly in the columns the
zigzag visits on rail `r` (the first decode loop sets `fence[rail][i] = 1`
along the zigzag). -/
def railMarks (rails len : Nat) : List (List Nat) :=
  (List.range rails).map (fun r =>
    ((railSeq rails len).map (fun rc => if rc = r then 1 else 0)))

/-- Rust `RailFenceCipherModule::process`, Encode arm (after the `rails.max(2)`
clamp and the `len = 0` early return). -/
def railEncode (rails : Nat) (chars : List Char) : List Char :=
  (railEncodeGo rails chars (List.replicate rails []) 0 1).flatten

/-- Rust `RailFenceCipherModule::process`, Decode arm: mark the zigzag, fill the
marked cells row-major with the ciphertext, read the zigzag back. -/
def railDecode (rails : Nat) (chars : List Char) : List Char :=
  let len := chars.length
  let filled := railFillRows (railMarks rails len) chars
  ((railSeq rails len).enum).map (fun p => (filled.getD p.2 []).getD p.1 '\x00')

/-- The read-out order of the rail fence: for each rail `r` in order, the
columns the zigzag visits on rail `r`, in column order.  The encoder emits the
characters of these positions and the decoder fills them in this order. -/
def railSigma (rails len : Nat) : List Nat :=
  (List.range rails).flatMap (fun r =>
    (List.range len).filter (fun i => (railSeq rails len).getD i 0 = r))

/-- The index, in the read-out order, of the character at zigzag position `i`:
all positions on earlier rails, plus the earlier positions on its own rail. -/
def railPos (rails len i : Nat) : Nat :=
  ((List.range ((railSeq rails len).getD i 0)).map (fun r =>
    ((List.range len).filter (fun j => (railSeq rails len).getD j 0 = r)).length)).sum
  + ((List.range i).filter (fun j =>
      (railSeq rails len).getD j 0 = (railSeq rails len).getD i 0)).length

/-- Rust `RailFenceCipherModule::process`. -/
def rail_fence_process (rails : Int) (mode : A1Z26Mode) (input : String) : String :=
  let rails : Nat := (rails.toNat).max 2
  let chars := input.toList
  if chars.length = 0 then ""
  else
    match mode with
    | .Encode => String.mk (railEncode rails chars)
    | .Decode => String.mk (railDecode rails chars)

/-- The 5-bit Bacon code of a letter value (`val`), `'a'` for 0-bits and `'b'`
for 1-bits, most significant bit first. -/
def baconCode (val : Nat) : String :=
  String.mk ((List.range 5).map (fun i =>
    if val / 2 ^ (4 - i) % 2 = 0 then 'a' else 'b'))

/-- Rust `BaconCipherModule::process`. -/
def bacon_process (mode : A1Z26Mode) (input : String) : String :=
  match mode with
  | .Encode =>
    String.join ((rustToUppercase input).toList.map (fun c =>
      if c.isAlpha then baconCode (c.toNat - 'A'.toNat) ++ " "
      else String.mk [c]))
  | .Decode =>
    let clean := input.toList.filter (fun c => c = 'a' ∨ c = 'b' ∨ c = 'A' ∨ c = 'B')
    let clean := clean.map Char.toLower
    String.mk ((chunksOf 5 clean).map (fun chunk =>
      if chunk.length = 5 then
        let val := (chunk.enum.map (fun p => if p.2 = 'b' then 2 ^ (4 - p.1) else 0)).sum
        if val < 26 then Char.ofNat ('a'.toNat + val) else '?'
      else ' '))

/-- The substitution map of `AlphabeticalSubstitutionModule::process`: the Rust
code inserts `(f, t)` and `(upper f, upper t)` into a `HashMap` in order, so a
later insert for the same key wins; lookup therefore scans the reversed insert
list. -/
def substLookup (pairs : List (Char × Char)) (c : Char) : Char :=
  match pairs.reverse.lookup c with
  | some t => t
  | none => c

/-- Rust `AlphabeticalSubstitutionModule::process`. -/
def substitution_process (plaintext ciphertext : String) (mode : CipherMode)
    (input : String) : String :=
  let plain_chars := plaintext.toList
  let cipher_chars := ciphertext.toList
  if plain_chars.length ≠ cipher_chars.length then
    "Error: Plaintext and Ciphertext alphabets must have the same length."
  else
    let (from_chars, to_chars) :=
      match mode with
      | CipherMode.Encode => (plain_chars, cipher_chars)
      | CipherMode.Decode => (cipher_chars, plain_chars)
    let pairs := (from_chars.zip to_chars).flatMap (fun p =>
      [(p.1, p.2), (p.1.toUpper, p.2.toUpper)])
    String.mk (input.toList.map (substLookup pairs))

/-! ## `src/modules/polybius.rs` -/

inductive PolybiusMode where
  | Encode
  | Decode
deriving DecidableEq, Repr

/-- Key loop of `PolybiusSquareModule::generate_square`: dedup the key's
alphanumeric characters (J→I in a 5×5 square); the `seen` set of the Rust code
always holds exactly the members of `square`. -/
def generateSquareKeyLoop (size : Nat) : List Char → List Char → List Char
  | [], square => square
  | c :: cs, square =>
    if c.isAlphanum ∧ ¬ square.contains c then
      let normalized := if size = 5 ∧ c = 'J' then 'I' else c
      if ¬ square.contains normalized then
        generateSquareKeyLoop size cs (square ++ [normalized])
      else generateSquareKeyLoop size cs square
    else generateSquareKeyLoop size cs square

/-- Fill loop of `generate_square`: append each unseen candidate. -/
def generateSquareFill (cands : List Char) (square : List Char) : List Char :=
  cands.foldl (fun sq c => if ¬ sq.contains c then sq ++ [c] else sq) square

/-- The letters `'A'..='Z'`. -/
def lettersAZ : List Char :=
  (List.range 26).map (fun i => Char.ofNat ('A'.toNat + i))

/-- The digits `'0'..='9'`. -/
def digits09 : List Char :=
  (List.range 10).map (fun i => Char.ofNat ('0'.toNat + i))

/-- Rust `PolybiusSquareModule::generate_square`. -/
def generate_square (key : String) (size : Nat) : List Char :=
  let square := generateSquareKeyLoop size (rustToUppercase key).toList []
  if size = 5 then
    generateSquareFill (lettersAZ.filter (· ≠ 'J')) square
  else
    generateSquareFill digits09 (generateSquareFill lettersAZ square)

/-- Rust `PolybiusSquareModule::find_in_square`. -/
def find_in_square (size : Nat) (square : List Char) (c : Char) : Option Nat :=
  let search_char := if size = 5 ∧ c = 'J' then 'I' else c
  square.findIdx? (· = search_char)

/-- Rust `PolybiusSquareModule::process`. -/
def polybius_process (key : String) (size : Nat) (mode : PolybiusMode)
    (input : String) : String :=
  let square := generate_square key size
  match mode with
  | .Encode =>
    String.join ((rustToUppercase input).toList.map (fun c =>
      match find_in_square size square c with
      | some pos =>
        toString (pos / size + 1) ++ toString (pos % size + 1) ++ " "
      | none => String.mk [c]))
  | .Decode =>
    let digits := input.toList.filter (·.isDigit)
    String.mk ((chunksOf 2 digits).filterMap (fun pair =>
      match pair with
      | [p0, p1] =>
        match p0.toNat - '0'.toNat, p1.toNat - '0'.toNat with
        | row, col =>
          if 0 < row ∧ 0 < col ∧ row ≤ size ∧ col ≤ size then
            let pos := (row - 1) * size + (col - 1)
            square[pos]?
          else none
      | _ => none))

/-- The `ADFGX` column headers. -/
def adfgxHeaders : List Char := ['A', 'D', 'F', 'G', 'X']

/-- Stable insertion into an index list ordered by key character (model of the
stable `sort_by_key` in `ADFGXCipherModule::process`): an index is inserted
after all indices with a key not greater than its own. -/
def insertByKey (key_chars : List Char) (i : Nat) : List Nat → List Nat
  | [] => [i]
  | j :: rest =>
    if key_chars.getD j ' ' ≤ key_chars.getD i ' ' then
      j :: insertByKey key_chars i rest
    else i :: j :: rest

/-- Rust `(0..num_cols).collect()` sorted stably by `key_chars[i]`
(`key_indices.sort_by_key(|&i| key_chars[i])`). -/
def sortedKeyIndices (key_chars : List Char) : List Nat :=
  (List.range key_chars.length).foldl (fun acc i => insertByKey key_chars i acc) []

/-- Rust `ADFGXCipherModule::process`, Encode arm.  The only panic site of the
module is `headers[row]` with `row = pos / 5`: a digit in the Polybius key
grows the 5×5 square past 25 cells, making `row = 5` reachable, hence the
`Option`. -/
def adfgxEncode (polybius_key transposition_key : String) (input : String) :
    Option String := do
  let square := generate_square polybius_key 5
  let subPairs ← (rustToUppercase input).toList.filterMapM (fun c =>
    match find_in_square 5 square c with
    | some pos =>
      match adfgxHeaders[pos / 5]?, adfgxHeaders[pos % 5]? with
      | some r, some col => some (some [r, col])
      | _, _ => none
    | none => some none)
  let substituted := subPairs.flatten
  let key_chars := (rustToUppercase transposition_key).toList.filter (·.isAlpha)
  if key_chars.isEmpty then
    return String.mk substituted
  let num_cols := key_chars.length
  let num_rows := (substituted.length + num_cols - 1) / num_cols
  let key_indices := sortedKeyIndices key_chars
  -- grid[row][col] is `substituted[row * num_cols + col]`, or the `' '` filler
  -- beyond the text (the Rust code materializes this as a Vec<Vec<char>>).
  let grid := fun (row col : Nat) => substituted.getD (row * num_cols + col) ' '
  let result := key_indices.flatMap (fun col_idx =>
    (((List.range num_rows).map (fun row => grid row col_idx)).filter (· ≠ ' '))
      ++ [' '])
  return String.mk result

/-- Rust `ADFGXCipherModule::process`, Decode arm (no panic sites). -/
def adfgxDecode (polybius_key transposition_key : String) (input : String) :
    String :=
  let square := generate_square polybius_key 5
  let input_clean := input.toList.filter (fun c => adfgxHeaders.contains c)
  let key_chars := (rustToUppercase transposition_key).toList.filter (·.isAlpha)
  if key_chars.isEmpty ∨ input_clean.isEmpty then ""
  else
    let num_cols := key_chars.length
    let total_len := input_clean.length
    let num_rows := (total_len + num_cols - 1) / num_cols
    let num_full_cols := total_len % num_cols
    let num_full_cols := if num_full_cols = 0 then num_cols else num_full_cols
    let col_lengths := (List.range num_cols).map (fun i =>
      if i < num_full_cols then num_rows else num_rows - 1)
    let key_indices := sortedKeyIndices key_chars
    -- Fill the columns in sorted-key order: column `col_idx` receives the next
    -- `col_lengths[col_idx]` ciphertext characters.
    let cols := (key_indices.foldl (fun (acc : List (Nat × List Char) × List Char) col_idx =>
      let len := col_lengths.getD col_idx 0
      ((col_idx, acc.2.take len) :: acc.1, acc.2.drop len)) ([], input_clean)).1
    let grid := fun (row col : Nat) => (((cols.lookup col).getD []).getD row ' ')
    let substituted := (List.range num_rows).flatMap (fun row =>
      ((List.range num_cols).map (fun col => grid row col)).filter (· ≠ ' '))
    String.mk ((chunksOf 2 substituted).filterMap (fun pair =>
      match pair with
      | [r_char, c_char] =>
        match adfgxHeaders.findIdx? (· = r_char), adfgxHeaders.findIdx? (· = c_char) with
        | some r, some c => square[r * 5 + c]?
        | _, _ => none
      | _ => none))

/-- Rust `ADFGXCipherModule::process`. -/
def adfgx_process (polybius_key transposition_key : String) (mode : PolybiusMode)
    (input : String) : Option String :=
  match mode with
  | .Encode => adfgxEncode polybius_key transposition_key input
  | .Decode => some (adfgxDecode polybius_key transposition_key input)

/-- Rust `BifidCipherModule::process`. -/
def bifid_process (key : String) (mode : PolybiusMode) (input : String) : String :=
  let square := generate_square key 5
  match mode with
  | .Encode =>
    let coords := (rustToUppercase input).toList.filterMap (fun c =>
      (find_in_square 5 square c).map (fun pos => (pos / 5, pos % 5)))
    let combined := coords.map Prod.fst ++ coords.map Prod.snd
    String.mk ((chunksOf 2 combined).filterMap (fun pair =>
      match pair with
      | [r, c] => square[r * 5 + c]?
      | _ => none))
  | .Decode =>
    let coords := (rustToUppercase input).toList.flatMap (fun c =>
      match find_in_square 5 square c with
      | some pos => [pos / 5, pos % 5]
      | none => [])
    if coords.length % 2 ≠ 0 then "Error: Odd number of coordinates"
    else
      let mid := coords.length / 2
      let rows := coords.take mid
      let cols := coords.drop mid
      String.mk ((List.range mid).filterMap (fun i =>
        square[rows.getD i 0 * 5 + cols.getD i 0]?))

/-- Rust `NihilistCipherModule::process`. -/
def nihilist_process (polybius_key keyword : String) (mode : PolybiusMode)
    (input : String) : String :=
  let square := generate_square polybius_key 5
  let key_coords := (rustToUppercase keyword).toList.filterMap (fun c =>
    (find_in_square 5 square c).map (fun pos => (pos / 5 + 1) * 10 + (pos % 5 + 1)))
  if key_coords.isEmpty then "Error: Keyword cannot be empty"
  else
    match mode with
    | .Encode =>
      let vals := (rustToUppercase input).toList.filterMap (fun c =>
        (find_in_square 5 square c).map (fun pos => (pos / 5 + 1) * 10 + (pos % 5 + 1)))
      String.intercalate " " (vals.enum.map (fun p =>
        toString (p.2 + key_coords.getD (p.1 % key_coords.length) 0)))
    | .Decode =>
      let nums := (splitWhitespace input).filterMap parseUsize
      String.mk (nums.enum.filterMap (fun p =>
        let key_val := key_coords.getD (p.1 % key_coords.length) 0
        if p.2 > key_val then
          let diff := p.2 - key_val
          let row := diff / 10
          let col := diff % 10
          if 0 < row ∧ 0 < col ∧ row ≤ 5 ∧ col ≤ 5 then
            square[(row - 1) * 5 + (col - 1)]?
          else none
        else none))

/-- Rust `TapCodeModule::process`. -/
def tap_code_process (mode : PolybiusMode) (input : String) : String :=
  match mode with
  | .Encode =>
    let coords := polybius_process "" 5 .Encode input
    String.join (coords.toList.map (fun c =>
      match digitVal c with
      | some d => if d ≤ 9 then String.mk (List.replicate d '.') ++ " " else String.mk [c]
      | none => String.mk [c]))
  | .Decode =>
    let coords := String.join ((splitWhitespace input).filterMap (fun group =>
      let dot_count := (group.toList.filter (· = '.')).length
      if 0 < dot_count ∧ dot_count ≤ 9 then some (toString dot_count) else none))
    polybius_process "" 5 .Decode coords

/-- The 27-character square of `TrifidCipherModule::process`. -/
def trifidSquare (key : String) : List Char :=
  let square := (rustToUppercase key).toList.foldl (fun sq c =>
    if (c.isAlpha ∨ c = '.') ∧ ¬ sq.contains c then sq ++ [c] else sq) []
  let square := generateSquareFill lettersAZ square
  if ¬ square.contains '.' then square ++ ['.'] else square

/-- Rust `TrifidCipherModule::process`. -/
def trifid_process (key : String) (mode : PolybiusMode) (input : String) : String :=
  let square := trifidSquare key
  match mode with
  | .Encode =>
    let coords := (rustToUppercase input).toList.filterMap (fun c =>
      (square.findIdx? (· = c)).map (fun pos => (pos / 9, pos % 9 / 3, pos % 3)))
    let combined := coords.map (fun t => t.1) ++ coords.map (fun t => t.2.1)
      ++ coords.map (fun t => t.2.2)
    String.mk ((chunksOf 3 combined).filterMap (fun triplet =>
      match triplet with
      | [l, r, c] => square[l * 9 + r * 3 + c]?
      | _ => none))
  | .Decode =>
    let coords := (rustToUppercase input).toList.flatMap (fun c =>
      match square.findIdx? (· = c) with
      | some pos => [pos / 9, pos % 9 / 3, pos % 3]
      | none => [])
    if coords.length % 3 ≠ 0 then
      "Error: Number of coordinates must be divisible by 3"
    else
      let third := coords.length / 3
      let layers := coords.take third
      let rows := (coords.drop third).take third
      let cols := coords.drop (2 * third)
      String.mk ((List.range third).filterMap (fun i =>
        square[layers.getD i 0 * 9 + rows.getD i 0 * 3 + cols.getD i 0]?))

/-! ## `src/modules/encoding.rs` -/

inductive EncodingMode where
  | Encode
  | Decode
deriving DecidableEq, Repr

/-- The standard Base64 alphabet. -/
def base64Alphabet : List Char :=
  "ABCDEFGHIJKLMNOPQRSTUVWXYZabcdefghijklmnopqrstuvwxyz0123456789+/".toList

/-- Modelled from the spec: `BASE64_STANDARD.encode` (external `base64` crate)
— RFC 4648 standard alphabet with `=` padding.  This model is exact. -/
def base64Encode (bytes : List Nat) : String :=
  String.join ((chunksOf 3 bytes).map (fun group =>
    match group with
    | [b0] =>
      let v := b0 * 2 ^ 16
      String.mk [base64Alphabet.getD (v / 2 ^ 18 % 64) 'A',
                 base64Alphabet.getD (v / 2 ^ 12 % 64) 'A', '=', '=']
    | [b0, b1] =>
      let v := b0 * 2 ^ 16 + b1 * 2 ^ 8
      String.mk [base64Alphabet.getD (v / 2 ^ 18 % 64) 'A',
                 base64Alphabet.getD (v / 2 ^ 12 % 64) 'A',
                 base64Alphabet.getD (v / 2 ^ 6 % 64) 'A', '=']
    | [b0, b1, b2] =>
      let v := b0 * 2 ^ 16 + b1 * 2 ^ 8 + b2
      String.mk [base64Alphabet.getD (v / 2 ^ 18 % 64) 'A',
                 base64Alphabet.getD (v / 2 ^ 12 % 64) 'A',
                 base64Alphabet.getD (v / 2 ^ 6 % 64) 'A',
                 base64Alphabet.getD (v % 64) 'A']
    | _ => ""))

/-- Modelled from the spec: `BASE64_STANDARD.decode` (external `base64` crate)
— canonical padded decoding; `none` on any invalid character or length. -/
def base64Decode (s : String) : Option (List Nat) :=
  let cs := s.toList
  let body := cs.takeWhile (· ≠ '=')
  let pad := cs.dropWhile (· ≠ '=')
  (body.mapM (fun c => base64Alphabet.findIdx? (· = c))).bind (fun (vals : List Nat) =>
    if (body.length + pad.length) % 4 ≠ 0 ∨ pad.length ≥ 3 ∨
        (pad.all (· = '=')) = false ∨ (cs.length = 0 ∧ pad.length ≠ 0) then none
    else
      let full := (chunksOf 4 vals).flatMap (fun g =>
        match g with
        | [a, b, c, d] =>
          let v := a * 2 ^ 18 + b * 2 ^ 12 + c * 2 ^ 6 + d
          [v / 2 ^ 16, v / 2 ^ 8 % 256, v % 256]
        | [a, b, c] =>
          let v := a * 2 ^ 18 + b * 2 ^ 12 + c * 2 ^ 6
          [v / 2 ^ 16, v / 2 ^ 8 % 256]
        | [a, b] =>
          let v := a * 2 ^ 18 + b * 2 ^ 12
          [v / 2 ^ 16]
        | _ => []
      )
      if vals.length % 4 = 1 then none else some full)

/-- Rust `Base64Module::process`. -/
def base64_process (mode : EncodingMode) (input : String) : String :=
  match mode with
  | .Encode => base64Encode (strBytes input)
  | .Decode =>
    match base64Decode input.trim with
    | some bytes => fromUtf8Lossy bytes
    | none => "Invalid Base64"

/-- The RFC 4648 Base32 alphabet. -/
def base32Alphabet : List Char := "ABCDEFGHIJKLMNOPQRSTUVWXYZ234567".toList

/-- Modelled from the spec: `data_encoding::BASE32.encode` (external crate) —
RFC 4648 Base32 with `=` padding.  This model is exact. -/
def base32Encode (bytes : List Nat) : String :=
  String.join ((chunksOf 5 bytes).map (fun group =>
    let n := group.length
    let v := group.foldl (fun acc b => acc * 256 + b % 256) 0
    let v := v * 2 ^ ((5 - n) * 8)
    let outLen := [0, 2, 4, 5, 7, 8].getD n 0
    String.mk (((List.range 8).map (fun i =>
      if i < outLen then base32Alphabet.getD (v / 2 ^ ((7 - i) * 5) % 32) 'A'
      else '=')))))

/-- Modelled from the spec: `data_encoding::BASE32.decode` (external crate) —
canonical padded decoding; `none` on invalid input. -/
def base32Decode (s : String) : Option (List Nat) :=
  let cs := s.toList
  if cs.length % 8 ≠ 0 then none
  else
    let body := cs.takeWhile (· ≠ '=')
    let pad := cs.dropWhile (· ≠ '=')
    if (pad.all (· = '=')) = false then none
    else
      (body.mapM (fun c => base32Alphabet.findIdx? (· = c))).bind (fun vals =>
        if [1, 3, 6].contains (vals.length % 8) then none
        else
          some ((chunksOf 8 vals).flatMap (fun g =>
            let v := g.foldl (fun acc d => acc * 32 + d) 0
            let v := v * 2 ^ ((8 - g.length) * 5)
            match [(2, 1), (4, 2), (5, 3), (7, 4), (8, 5)].lookup g.length with
            | some nb => (List.range nb).map (fun i => v / 2 ^ ((4 - i) * 8) % 256)
            | none => [])))

/-- Rust `Base32Module::process`. -/
def base32_process (mode : EncodingMode) (input : String) : String :=
  match mode with
  | .Encode => base32Encode (strBytes input)
  | .Decode =>
    match base32Decode input.trim with
    | some bytes => fromUtf8Lossy bytes
    | none => "Invalid Base32"

/-- One 4-byte group of `encode_ascii85` (the in-repository helper): the `u32`
accumulated by four left shifts, the `z` shortcut, and `count + 1` digits. -/
def encodeAscii85Group (chunk : List Nat) : List Char :=
  let value := (chunk.foldl (fun v b => v * 256 + b % 256) 0) * 256 ^ (4 - chunk.length)
  if chunk.length = 4 ∧ value = 0 then ['z']
  else
    ((List.range 5).map (fun j => Char.ofNat (value / 85 ^ (4 - j) % 85 + 33))).take
      (chunk.length + 1)

/-- Rust `encode_ascii85` (in-repository helper of `encoding.rs`). -/
def encode_ascii85 (data : List Nat) : String :=
  "<~" ++ String.join ((chunksOf 4 data).map (fun g => String.mk (encodeAscii85Group g)))
    ++ "~>"

/-- Loop of `decode_ascii85`: groups of up to five characters; a `z` is only
legal as the first character of a group (expanding to four zero bytes); other
characters must lie in `'!'..='u'`; a partial group is padded with `84` and
contributes `count - 1` bytes.  `u32` arithmetic wraps mod `2^32` as in a
release build. -/
def decodeAscii85Go : List Char → Option (List Nat)
  | [] => some []
  | 'z' :: rest => (decodeAscii85Go rest).map (fun bs => [0, 0, 0, 0] ++ bs)
  | c :: rest =>
    let group := (c :: rest).take 5
    if group.any (· = 'z') then none
    else if group.any (fun ch => ch < '!' ∨ 'u' < ch) then none
    else
      let count := group.length
      let value := group.foldl (fun v ch => (v * 85 + (ch.toNat - 33)) % 2 ^ 32) 0
      let value := (List.range (5 - count)).foldl (fun v _ => (v * 85 + 84) % 2 ^ 32) value
      have : ((c :: rest).drop 5).length < (c :: rest).length := by
        simp only [List.length_drop, List.length_cons]
        omega
      (decodeAscii85Go ((c :: rest).drop 5)).map (fun bs =>
        ((List.range 4).map (fun i => value / 2 ^ ((3 - i) * 8) % 256)).take (count - 1)
          ++ bs)
termination_by cs => cs.length

/-- Rust `decode_ascii85` (in-repository helper of `encoding.rs`). -/
def decode_ascii85 (data : String) : Option (List Nat) :=
  let data := trimEndMatches "~>" (trimStartMatches "<~" data)
  decodeAscii85Go (data.toList.filter (fun c => ¬ c.isWhitespace))

/-- Rust `Ascii85Module::process`. -/
def ascii85_process (mode : EncodingMode) (input : String) : String :=
  match mode with
  | .Encode => encode_ascii85 (strBytes input)
  | .Decode =>
    match decode_ascii85 input.trim with
    | some bytes => fromUtf8Lossy bytes
    | none => "Invalid Ascii85"

/-- Rust `get_baudot_letters` (ITA2 letter codes). -/
def baudotLetters : List (Char × Nat) :=
  [('A', 0b00011), ('B', 0b11001), ('C', 0b01110), ('D', 0b01001),
   ('E', 0b00001), ('F', 0b01101), ('G', 0b11010), ('H', 0b10100),
   ('I', 0b00110), ('J', 0b01011), ('K', 0b01111), ('L', 0b10010),
   ('M', 0b11100), ('N', 0b01100), ('O', 0b11000), ('P', 0b10110),
   ('Q', 0b10111), ('R', 0b01010), ('S', 0b00101), ('T', 0b10000),
   ('U', 0b00111), ('V', 0b11110), ('W', 0b10011), ('X', 0b11101),
   ('Y', 0b10101), ('Z', 0b10001), (' ', 0b00100), ('\r', 0b01000),
   ('\n', 0b00010)]

/-- Rust `get_baudot_figures` (ITA2 figure codes). -/
def baudotFigures : List (Char × Nat) :=
  [('-', 0b00011), ('?', 0b11001), (':', 0b01110), ('$', 0b01001),
   ('3', 0b00001), ('!', 0b01101), ('&', 0b11010), ('#', 0b10100),
   ('8', 0b00110), ('\'', 0b01011), ('(', 0b01111), (')', 0b10010),
   ('.', 0b11100), (',', 0b01100), ('9', 0b11000), ('0', 0b10110),
   ('1', 0b10111), ('4', 0b01010), ('/', 0b00101), ('5', 0b10000),
   ('7', 0b00111), ('=', 0b11110), ('2', 0b10011), ('+', 0b11101),
   ('6', 0b10101), ('"', 0b10001), (' ', 0b00100), ('\r', 0b01000),
   ('\n', 0b00010)]

/-- The character loop of `encode_baudot`, threading the `in_figures` shift
state. -/
def encodeBaudotGo : List Char → Bool → String
  | [], _ => ""
  | c :: cs, in_figures =>
    match baudotLetters.lookup c with
    | some code =>
      (if in_figures then fmtBinPad 5 0b11111 ++ " " else "")
        ++ fmtBinPad 5 code ++ " " ++ encodeBaudotGo cs false
    | none =>
      match baudotFigures.lookup c with
      | some code =>
        (if ¬ in_figures then fmtBinPad 5 0b11011 ++ " " else "")
          ++ fmtBinPad 5 code ++ " " ++ encodeBaudotGo cs true
      | none => encodeBaudotGo cs in_figures

/-- Rust `encode_baudot`. -/
def encode_baudot (input : String) : String :=
  (encodeBaudotGo (rustToUppercase input).toList false).trim

/-- Reverse lookup in a Baudot table (`HashMap` built by inserting every
`(code, char)` pair; codes are distinct, so first match suffices). -/
def baudotRevLookup (table : List (Char × Nat)) (code : Nat) : Option Char :=
  (table.find? (fun p => p.2 = code)).map Prod.fst

/-- The group loop of `decode_baudot`, threading the `in_figures` shift state. -/
def decodeBaudotGo : List String → Bool → List Char
  | [], _ => []
  | g :: gs, in_figures =>
    match parseNatRadix 2 g.toList with
    | some code =>
      if code ≥ 256 then decodeBaudotGo gs in_figures
      else if code = 0b11111 then decodeBaudotGo gs false
      else if code = 0b11011 then decodeBaudotGo gs true
      else if in_figures then
        match baudotRevLookup baudotFigures code with
        | some c => c :: decodeBaudotGo gs in_figures
        | none => decodeBaudotGo gs in_figures
      else
        match baudotRevLookup baudotLetters code with
        | some c => c :: decodeBaudotGo gs in_figures
        | none => decodeBaudotGo gs in_figures
    | none => decodeBaudotGo gs in_figures

/-- Rust `decode_baudot`. -/
def decode_baudot (input : String) : String :=
  String.mk (decodeBaudotGo (splitWhitespace input) false)

/-- Rust `BaudotCodeModule::process`. -/
def baudot_process (mode : EncodingMode) (input : String) : String :=
  match mode with
  | .Encode => encode_baudot input
  | .Decode => decode_baudot input

/-- Rust `UnicodeCodePointsModule::process`. -/
def unicode_process (mode : EncodingMode) (input : String) : String :=
  match mode with
  | .Encode =>
    String.join (input.toList.map (fun c => "U+" ++ fmtHexPadUpper 4 c.toNat ++ " "))
  | .Decode =>
    String.mk ((splitWhitespace input).filterMap (fun part =>
      let hex_part := trimStartMatches "u+" (trimStartMatches "U+" part)
      (parseNatRadix 16 hex_part.toList).bind (fun code_point =>
        if code_point < 2 ^ 32 ∧ Nat.isValidChar code_point then
          some (Char.ofNat code_point)
        else none)))

/-- The decode loop of `UrlEncodingModule::process`. -/
def urlDecodeGo : List Char → List Char
  | [] => []
  | '%' :: rest =>
    let hex := rest.take 2
    (match parseNatRadix 16 hex with
     | some byte =>
       if byte < 256 then
         have : (rest.drop 2).length ≤ rest.length := by
           simp only [List.length_drop]; omega
         Char.ofNat byte :: urlDecodeGo (rest.drop 2)
       else '%' :: hex ++ urlDecodeGo (rest.drop 2)
     | none => '%' :: hex ++ urlDecodeGo (rest.drop 2))
  | '+' :: rest => ' ' :: urlDecodeGo rest
  | c :: rest => c :: urlDecodeGo rest
termination_by cs => cs.length
decreasing_by
  all_goals
    simp only [List.length_drop, List.length_cons]
    omega

/-- Rust `UrlEncodingModule::process`. -/
def url_process (mode : EncodingMode) (input : String) : String :=
  match mode with
  | .Encode =>
    String.join (input.toList.map (fun c =>
      if c.isAlphanum ∨ c = '-' ∨ c = '_' ∨ c = '.' ∨ c = '~' then String.mk [c]
      else "%" ++ fmtHexPadUpper 2 (c.toNat % 256)))
  | .Decode => String.mk (urlDecodeGo input.toList)

/-- Modelled from the spec: `idna::domain_to_ascii` (external `idna` crate) —
a total function returning the ASCII form of a domain or an error.  Modelled as
ASCII lowercasing of an already-ASCII domain. -/
def idnaDomainToAscii (s : String) : Option String :=
  some (rustToLowercase s)

/-- Modelled from the spec: `idna::domain_to_unicode` (external `idna` crate)
— always yields a best-effort string plus an error flag.  Modelled as the
identity with no error. -/
def idnaDomainToUnicode (s : String) : String × Bool :=
  (s, true)

/-- Rust `PunycodeModule::process`. -/
def punycode_process (mode : EncodingMode) (input : String) : String :=
  match mode with
  | .Encode =>
    match idnaDomainToAscii input with
    | some encoded => encoded
    | none => "Invalid domain"
  | .Decode =>
    match idnaDomainToUnicode input with
    | (decoded, true) => decoded
    | (_, false) => "Invalid punycode"

/-- The index of the last `'-'` of the character list, if any (Rust
`str::rfind('-')`; for the ASCII pattern the byte split coincides with the
character split). -/
def lastDashIdx (cs : List Char) : Option Nat :=
  match (cs.reverse).findIdx? (· = '-') with
  | some j => some (cs.length - 1 - j)
  | none => none

/-- Rust `BootstringModule::process` (the repository's simplified bootstring). -/
def bootstring_process (mode : EncodingMode) (input : String) : String :=
  match mode with
  | .Encode =>
    let ascii_part := input.toList.filter (·.toNat < 128)
    let non_ascii := input.toList.filter (fun c => ¬ c.toNat < 128)
    if non_ascii.isEmpty then String.mk ascii_part
    else
      String.mk ascii_part ++ "-"
        ++ String.intercalate "-" (non_ascii.map (fun c => natToBase 16 c.toNat))
  | .Decode =>
    match lastDashIdx input.toList with
    | some dash_pos =>
      let ascii_part := input.toList.take dash_pos
      let encoded_part := input.toList.drop (dash_pos + 1)
      let appended := ((String.mk encoded_part).split (· = '-')).filterMap (fun hex_str =>
        (parseNatRadix 16 hex_str.toList).bind (fun code_point =>
          if code_point < 2 ^ 32 ∧ Nat.isValidChar code_point then
            some (Char.ofNat code_point)
          else none))
      String.mk (ascii_part ++ appended)
    | none => input

inductive IntegerMode where
  | ToDecimal
  | ToHex
deriving DecidableEq, Repr

/-- Rust `IntegerModule::process`. -/
def integer_process (mode : IntegerMode) (input : String) : String :=
  match mode with
  | .ToDecimal => String.join ((strBytes input).map (fun b => toString b ++ " "))
  | .ToHex => String.join ((strBytes input).map (fun b => fmtHexPadUpper 2 b ++ " "))

/-! ## `src/modules/modern.rs` -/

inductive BlockCipherMode where
  | Encrypt
  | Decrypt
deriving DecidableEq, Repr

inductive RC4Mode where
  | Encrypt
  | Decrypt
deriving DecidableEq, Repr

inductive HashAlgorithm where
  | MD5
  | SHA256
deriving DecidableEq, Repr

/-- Modelled from the spec: the AES-128 block transform of the external `aes`
crate — a total 16-byte-block permutation, out of scope per the spec; the
stand-in adds the round-key bytes positionally. -/
def aes128BlockModel (key block : List Nat) : List Nat :=
  block.enum.map (fun p => (p.2 + key.getD (p.1 % 16) 0 + p.1) % 256)

/-- Inverse of `aes128BlockModel` (stand-in for the `aes` decrypt direction). -/
def aes128BlockInvModel (key block : List Nat) : List Nat :=
  block.enum.map (fun p => (p.2 + 256 - (key.getD (p.1 % 16) 0 + p.1) % 256) % 256)

/-- Modelled from the spec: CBC-mode encryption of the external `cbc` crate
over the block stand-in (XOR the previous ciphertext block, then the block
transform). -/
def aesCbcEncryptModel (key iv data : List Nat) : List Nat :=
  ((chunksOf 16 data).foldl (fun (acc : List Nat × List Nat) block =>
    let xored := block.enum.map (fun p => p.2.xor (acc.2.getD p.1 0))
    let ct := aes128BlockModel key xored
    (acc.1 ++ ct, ct)) ([], iv)).1

/-- Modelled from the spec: CBC-mode decryption of the external `cbc` crate
over the block stand-in. -/
def aesCbcDecryptModel (key iv data : List Nat) : List Nat :=
  ((chunksOf 16 data).foldl (fun (acc : List Nat × List Nat) block =>
    let pt0 := aes128BlockInvModel key block
    let pt := pt0.enum.map (fun p => p.2.xor (acc.2.getD p.1 0))
    (acc.1 ++ pt, block)) ([], iv)).1

/-- The 16-byte key/IV buffers of `BlockCipherModule::process`
(`*key_src.get(i).unwrap_or(&0)` for `i` in `0..16`). -/
def sixteenBytes (s : String) : List Nat :=
  (List.range 16).map (fun i => (strBytes s).getD i 0)

/-- Rust `BlockCipherModule::process`. -/
def block_cipher_process (mode : BlockCipherMode) (key iv : String)
    (input : String) : String :=
  let key_bytes := sixteenBytes key
  let iv_bytes := sixteenBytes iv
  match mode with
  | .Encrypt =>
    let input_bytes := strBytes input
    let padding_len := 16 - input_bytes.length % 16
    let buffer := input_bytes ++ List.replicate padding_len padding_len
    -- `buffer.resize(len + 16, 0)` only adds scratch space beyond `msg_len`;
    -- `encrypt_padded_mut::<NoPadding>` succeeds since `len` is a multiple
    -- of 16, encrypting exactly `buffer[..len]`.
    hexEncode (aesCbcEncryptModel key_bytes iv_bytes buffer)
  | .Decrypt =>
    match hexDecode input.trim.toList with
    | none => "Invalid hex input"
    | some ciphertext =>
      -- `decrypt_padded_mut::<NoPadding>` errors unless the length is a
      -- multiple of the block size.
      if ciphertext.length % 16 ≠ 0 then "Decryption error"
      else
        let pt := aesCbcDecryptModel key_bytes iv_bytes ciphertext
        let pt :=
          match pt.getLast? with
          | some padding_len =>
            if 0 < padding_len ∧ padding_len ≤ 16 then
              pt.take (pt.length - padding_len)
            else pt
          | none => pt
        fromUtf8Lossy pt

/-- Swap two (in-range) entries of the RC4 state vector. -/
def listSwap (l : List Nat) (i j : Nat) : List Nat :=
  match l[i]?, l[j]? with
  | some a, some b => (l.set i b).set j a
  | _, _ => l

/-- The KSA loop of `RC4Module::rc4_keystream`; `none` models the
division-by-zero panic of `key_bytes[i % key_bytes.len()]` on an empty key. -/
def rc4Ksa (key_bytes : List Nat) : Option (List Nat) :=
  if key_bytes.isEmpty then none
  else some (((List.range 256).foldl (fun (acc : List Nat × Nat) i =>
    let j := (acc.2 + acc.1.getD i 0 + key_bytes.getD (i % key_bytes.length) 0) % 256
    (listSwap acc.1 i j, j)) ((List.range 256), 0)).1)

/-- The PRGA loop of `RC4Module::rc4_keystream`. -/
def rc4Prga (length : Nat) (s : List Nat) : List Nat :=
  (((List.range length).foldl (fun (acc : List Nat × Nat × Nat × List Nat) _ =>
    let (s, i, j, out) := acc
    let i := (i + 1) % 256
    let j := (j + s.getD i 0) % 256
    let s := listSwap s i j
    let k := s.getD ((s.getD i 0 + s.getD j 0) % 256) 0
    (s, i, j, out ++ [k])) (s, 0, 0, [])).2.2.2)

/-- Rust `RC4Module::rc4_keystream`. -/
def rc4_keystream (key : String) (length : Nat) : Option (List Nat) :=
  (rc4Ksa (strBytes key)).map (rc4Prga length)

/-- Rust `RC4Module::process`. -/
def rc4_process (mode : RC4Mode) (key : String) (input : String) : Option String :=
  match mode with
  | .Encrypt =>
    let input_bytes := strBytes input
    (rc4_keystream key input_bytes.length).map (fun ks =>
      hexEncode ((input_bytes.zip ks).map (fun p => p.1.xor p.2)))
  | .Decrypt =>
    match hexDecode input.trim.toList with
    | none => some "Invalid hex input"
    | some ciphertext =>
      (rc4_keystream key ciphertext.length).map (fun ks =>
        fromUtf8Lossy ((ciphertext.zip ks).map (fun p => p.1.xor p.2)))

/-- Modelled from the spec: the MD5 digest of the external `md5` crate — a
total function from bytes to a 16-byte digest, out of scope per the spec. -/
def md5Model (bytes : List Nat) : List Nat :=
  (List.range 16).map (fun i =>
    (bytes.sum + (i + 1) * (bytes.length + 1) + i * i) % 256)

/-- Modelled from the spec: the SHA-256 digest of the external `sha2` crate —
a total function from bytes to a 32-byte digest, out of scope per the spec. -/
def sha256Model (bytes : List Nat) : List Nat :=
  (List.range 32).map (fun i =>
    (bytes.sum * 3 + (i + 2) * (bytes.length + 1) + i) % 256)

/-- The digest selected by a `HashAlgorithm`. -/
def digestOf (alg : HashAlgorithm) (bytes : List Nat) : List Nat :=
  match alg with
  | .MD5 => md5Model bytes
  | .SHA256 => sha256Model bytes

/-- Rust `HashFunctionModule::process` (`format!("{:x}", digest)` is lowercase
hex). -/
def hash_process (algorithm : HashAlgorithm) (input : String) : String :=
  hexEncode (digestOf algorithm (strBytes input))

/-- Rust `HMACModule::process` (the repository's own HMAC glue over the external
digests). -/
def hmac_process (key : String) (algorithm : HashAlgorithm) (input : String) :
    String :=
  let key_bytes := strBytes key
  let block_size := 64
  let base := if key_bytes.length ≤ block_size then key_bytes
              else digestOf algorithm key_bytes
  let key_padded := (List.range block_size).map (fun i => base.getD i 0)
  let o_key_pad := key_padded.map (fun b => Nat.xor 0x5c b)
  let i_key_pad := key_padded.map (fun b => Nat.xor 0x36 b)
  let inner_hash := digestOf algorithm (i_key_pad ++ strBytes input)
  hexEncode (digestOf algorithm (o_key_pad ++ inner_hash))

/-! ## `src/modules/enigma.rs` -/

/-- Rust `ROTOR_WIRINGS` (historical rotors I–VIII). -/
def ROTOR_WIRINGS : List String :=
  ["EKMFLGDQVZNTOWYHXUSPAIBRCJ", "AJDKSIRUXBLHWTMCQGZNPYFVOE",
   "BDFHJLCPRTXVZNYEIWGAKMUSQO", "ESOVPZJAYQUIRHXLNFTGKDCMWB",
   "VZBRGITYUPSDNHLXAWMJQOFECK", "JPGVOUMFYQBENHZRDKASXLICTW",
   "NZJHGRCXMYSWBOUFAIVLPEKQDT", "FKQHTLXOCBJSPDZRAMEWNIUYGV"]

/-- Rust `ROTOR_NOTCHES`. -/
def ROTOR_NOTCHES : List String :=
  ["Q", "E", "V", "J", "Z", "ZM", "ZM", "ZM"]

/-- Rust `REFLECTOR_WIRINGS` (B, C, B-Thin). -/
def REFLECTOR_WIRINGS : List String :=
  ["YRUHQSLDPXNGOKMIEBFZCWVJAT", "FVPJIAOYEDRZXWGCTKUQSBNMHL",
   "ENKQAUYWJICOPBLMDXZVFTHRGS"]

structure Rotor where
  wiring : String
  notch : String
  position : Nat
  ring_setting : Nat
deriving DecidableEq, Repr

/-- Rust `Rotor::new`; `none` models the panic of `ROTOR_WIRINGS[rotor_num]` for a
selector outside `0..8`. -/
def Rotor.new (rotor_num position ring_setting : Nat) : Option Rotor :=
  match ROTOR_WIRINGS[rotor_num]?, ROTOR_NOTCHES[rotor_num]? with
  | some w, some n => some ⟨w, n, position % 26, ring_setting % 26⟩
  | _, _ => none

/-- Rust `Rotor::at_notch`. -/
def Rotor.at_notch (r : Rotor) : Bool :=
  r.notch.contains (Char.ofNat ('A'.toNat + r.position))

/-- Rust `Rotor::step`. -/
def Rotor.step (r : Rotor) : Rotor :=
  { r with position := (r.position + 1) % 26 }

/-- Rust `Rotor::forward`. -/
def Rotor.forward (r : Rotor) (c : Nat) : Nat :=
  let shift := (r.position + 26 - r.ring_setting) % 26
  let index := (c + shift) % 26
  let wired := (r.wiring.toList.getD index 'A').toNat - 'A'.toNat
  (wired + 26 - shift) % 26

/-- Rust `Rotor::backward`. -/
def Rotor.backward (r : Rotor) (c : Nat) : Nat :=
  let shift := (r.position + 26 - r.ring_setting) % 26
  let shifted := (c + shift) % 26
  let target := Char.ofNat ('A'.toNat + shifted)
  let index := (r.wiring.toList.findIdx? (· = target)).getD 0
  (index + 26 - shift) % 26

/-- Rust `Reflector::reflect`. -/
def reflect (wiring : String) (c : Nat) : Nat :=
  (wiring.toList.getD c 'A').toNat - 'A'.toNat

/-- Rust `Plugboard::new`: the identity on `0..26` overwritten by each well-formed
two-character pair (`saturating_sub` is natural subtraction). -/
def plugboardNew (pairs : String) : List Nat :=
  (splitWhitespace pairs).foldl (fun mapping pair =>
    match pair.toList with
    | [c0, c1] =>
      let a := c0.toUpper.toNat - 'A'.toNat
      let b := c1.toUpper.toNat - 'A'.toNat
      if a < 26 ∧ b < 26 then (mapping.set a b).set b a else mapping
    | _ => mapping) (List.range 26)

/-- Rust `Plugboard::swap`. -/
def plugboardSwap (mapping : List Nat) (c : Nat) : Nat :=
  mapping.getD c 0

/-- Rust `EnigmaModule::encode_char`: the double-stepping rotor update followed by
the signal path; non-alphabetic characters return early without stepping. -/
def enigmaEncodeChar (c : Char) (rotors : Rotor × Rotor × Rotor)
    (reflector_wiring : String) (plugboard : List Nat) :
    Char × (Rotor × Rotor × Rotor) :=
  if ¬ c.isAlpha then (c, rotors)
  else
    let (r0, r1, r2) := rotors
    let middle_at_notch := r1.at_notch
    let right_at_notch := r2.at_notch
    let (r0, r1) :=
      if middle_at_notch then (r0.step, r1.step)
      else if right_at_notch then (r0, r1.step)
      else (r0, r1)
    let r2 := r2.step
    let signal := c.toUpper.toNat - 'A'.toNat
    let signal := plugboardSwap plugboard signal
    let signal := r2.forward signal
    let signal := r1.forward signal
    let signal := r0.forward signal
    let signal := reflect reflector_wiring signal
    let signal := r0.backward signal
    let signal := r1.backward signal
    let signal := r2.backward signal
    let signal := plugboardSwap plugboard signal
    (Char.ofNat ('A'.toNat + signal), (r0, r1, r2))

/-- The character loop of `EnigmaModule::process`, threading the rotor state. -/
def enigmaGo (reflector_wiring : String) (plugboard : List Nat) :
    List Char → Rotor × Rotor × Rotor → List Char
  | [], _ => []
  | c :: cs, rotors =>
    let (out, rotors) := enigmaEncodeChar c rotors reflector_wiring plugboard
    out :: enigmaGo reflector_wiring plugboard cs rotors

/-- The configuration of `EnigmaModule`. -/
structure EnigmaConfig where
  left_rotor : Nat
  middle_rotor : Nat
  right_rotor : Nat
  left_position : Nat
  middle_position : Nat
  right_position : Nat
  left_ring : Nat
  middle_ring : Nat
  right_ring : Nat
  reflector : Nat
  plugboard_pairs : String
deriving DecidableEq, Repr

/-- The `Default` impl of `EnigmaModule`. -/
def EnigmaConfig.default : EnigmaConfig :=
  ⟨0, 1, 2, 0, 0, 0, 0, 0, 0, 0, ""⟩

/-- Rust `EnigmaModule::process`; `none` models the panics of out-of-range rotor or
reflector selectors. -/
def enigma_process (cfg : EnigmaConfig) (input : String) : Option String := do
  let r0 ← Rotor.new cfg.left_rotor cfg.left_position cfg.left_ring
  let r1 ← Rotor.new cfg.middle_rotor cfg.middle_position cfg.middle_ring
  let r2 ← Rotor.new cfg.right_rotor cfg.right_position cfg.right_ring
  let reflector_wiring ← REFLECTOR_WIRINGS[cfg.reflector]?
  let plugboard := plugboardNew cfg.plugboard_pairs
  return String.mk (enigmaGo reflector_wiring plugboard input.toList (r0, r1, r2))

/-! ## `src/module.rs` and `src/modules/mod.rs`: the module catalog

`Box<dyn Module>` ranges over the closed set of module structs of the
repository; it is embedded as a sum of the per-module configurations.  A
value of `ModuleState` is one transform instance together with its current
configuration. -/

inductive ModuleState where
  | reverse
  | case_transform (mode : CaseMode)
  | replace (find replaceWith : String)
  | numeral (fromSys toSys : NumeralSystem)
  | bitwise (op : BitwiseOp) (operand : String)
  | morse (direction : Direction)
  | spelling
  | caesar (shift : Int) (mode : CipherMode)
  | rot13
  | a1z26 (mode : A1Z26Mode)
  | affine (a b : Int) (mode : CipherMode)
  | vigenere (key : String) (mode : A1Z26Mode)
  | rail_fence (rails : Int) (mode : A1Z26Mode)
  | bacon (mode : A1Z26Mode)
  | substitution (plaintext ciphertext : String) (mode : CipherMode)
  | polybius (key : String) (size : Nat) (mode : PolybiusMode)
  | adfgx (polybius_key transposition_key : String) (mode : PolybiusMode)
  | bifid (key : String) (mode : PolybiusMode)
  | nihilist (polybius_key keyword : String) (mode : PolybiusMode)
  | tap_code (mode : PolybiusMode)
  | trifid (key : String) (mode : PolybiusMode)
  | base64 (mode : EncodingMode)
  | base32 (mode : EncodingMode)
  | ascii85 (mode : EncodingMode)
  | baudot (mode : EncodingMode)
  | unicode (mode : EncodingMode)
  | url (mode : EncodingMode)
  | punycode (mode : EncodingMode)
  | bootstring (mode : EncodingMode)
  | integer (mode : IntegerMode)
  | block_cipher (mode : BlockCipherMode) (key iv : String)
  | rc4 (mode : RC4Mode) (key : String)
  | hash (algorithm : HashAlgorithm)
  | hmac (key : String) (algorithm : HashAlgorithm)
  | enigma (cfg : EnigmaConfig)
deriving DecidableEq, Repr

instance : Inhabited ModuleState := ⟨ModuleState.rot13⟩

/-- Rust `Module::name` of each module struct. -/
def ModuleState.name : ModuleState → String
  | .reverse => "Reverse"
  | .case_transform _ => "Case Transform"
  | .replace _ _ => "Replace"
  | .numeral _ _ => "Numeral System"
  | .bitwise _ _ => "Bitwise Operation"
  | .morse _ => "Morse Code"
  | .spelling => "Spelling Alphabet"
  | .caesar _ _ => "Caesar Cipher"
  | .rot13 => "ROT13"
  | .a1z26 _ => "A1Z26"
  | .affine _ _ _ => "Affine Cipher"
  | .vigenere _ _ => "Vigenere Cipher"
  | .rail_fence _ _ => "Rail Fence Cipher"
  | .bacon _ => "Bacon Cipher"
  | .substitution _ _ _ => "Alphabetical Substitution"
  | .polybius _ _ _ => "Polybius Square"
  | .adfgx _ _ _ => "ADFGX Cipher"
  | .bifid _ _ => "Bifid Cipher"
  | .nihilist _ _ _ => "Nihilist Cipher"
  | .tap_code _ => "Tap Code"
  | .trifid _ _ => "Trifid Cipher"
  | .base64 _ => "Base64"
  | .base32 _ => "Base32"
  | .ascii85 _ => "Ascii85"
  | .baudot _ => "Baudot Code"
  | .unicode _ => "Unicode Code Points"
  | .url _ => "URL Encoding"
  | .punycode _ => "Punycode"
  | .bootstring _ => "Bootstring"
  | .integer _ => "Integer"
  | .block_cipher _ _ _ => "Block Cipher (AES-128-CBC)"
  | .rc4 _ _ => "RC4"
  | .hash _ => "Hash Function"
  | .hmac _ _ => "HMAC"
  | .enigma _ => "Enigma Machine"

/-- Rust `Module::process` of each module struct; `none` is a Rust panic (possible
only in the RC4, ADFGX and Enigma modules). -/
def ModuleState.process : ModuleState → String → Option String
  | .reverse, input => some (reverse_process input)
  | .case_transform mode, input => some (case_transform_process mode input)
  | .replace find replaceWith, input => some (replace_process find replaceWith input)
  | .numeral fromSys toSys, input => some (numeral_process fromSys toSys input)
  | .bitwise op operand, input => some (bitwise_process op operand input)
  | .morse direction, input => some (morse_process direction input)
  | .spelling, input => some (spelling_process input)
  | .caesar shift mode, input => some (caesar_process shift mode input)
  | .rot13, input => some (rot13_process input)
  | .a1z26 mode, input => some (a1z26_process mode input)
  | .affine a b mode, input => some (affine_process a b mode input)
  | .vigenere key mode, input => some (vigenere_process key mode input)
  | .rail_fence rails mode, input => some (rail_fence_process rails mode input)
  | .bacon mode, input => some (bacon_process mode input)
  | .substitution p c mode, input => some (substitution_process p c mode input)
  | .polybius key size mode, input => some (polybius_process key size mode input)
  | .adfgx pk tk mode, input => adfgx_process pk tk mode input
  | .bifid key mode, input => some (bifid_process key mode input)
  | .nihilist pk kw mode, input => some (nihilist_process pk kw mode input)
  | .tap_code mode, input => some (tap_code_process mode input)
  | .trifid key mode, input => some (trifid_process key mode input)
  | .base64 mode, input => some (base64_process mode input)
  | .base32 mode, input => some (base32_process mode input)
  | .ascii85 mode, input => some (ascii85_process mode input)
  | .baudot mode, input => some (baudot_process mode input)
  | .unicode mode, input => some (unicode_process mode input)
  | .url mode, input => some (url_process mode input)
  | .punycode mode, input => some (punycode_process mode input)
  | .bootstring mode, input => some (bootstring_process mode input)
  | .integer mode, input => some (integer_process mode input)
  | .block_cipher mode key iv, input => some (block_cipher_process mode key iv input)
  | .rc4 mode key, input => rc4_process mode key input
  | .hash algorithm, input => some (hash_process algorithm input)
  | .hmac key algorithm, input => some (hmac_process key algorithm input)
  | .enigma cfg, input => enigma_process cfg input

/-- Rust `create_module` (`src/modules/mod.rs`): the stable identifier match; each
arm yields the `Default` configuration of its module struct. -/
def create_module (id : String) : Option ModuleState :=
  match id with
  | "reverse" => some .reverse
  | "case_transform" => some (.case_transform .LowerCase)
  | "replace" => some (.replace "" "")
  | "numeral" => some (.numeral .Decimal .Binary)
  | "bitwise" => some (.bitwise .NOT "0")
  | "morse" => some (.morse .Encode)
  | "spelling" => some .spelling
  | "caesar" => some (.caesar 1 .Encode)
  | "rot13" => some .rot13
  | "a1z26" => some (.a1z26 .Encode)
  | "affine" => some (.affine 5 8 .Encode)
  | "vigenere" => some (.vigenere "KEY" .Encode)
  | "rail_fence" => some (.rail_fence 3 .Encode)
  | "bacon" => some (.bacon .Encode)
  | "substitution" =>
    some (.substitution "abcdefghijklmnopqrstuvwxyz" "zyxwvutsrqponmlkjihgfedcba" .Encode)
  | "polybius" => some (.polybius "" 5 .Encode)
  | "adfgx" => some (.adfgx "" "" .Encode)
  | "bifid" => some (.bifid "" .Encode)
  | "nihilist" => some (.nihilist "" "" .Encode)
  | "tap_code" => some (.tap_code .Encode)
  | "trifid" => some (.trifid "" .Encode)
  | "base64" => some (.base64 .Encode)
  | "base32" => some (.base32 .Encode)
  | "ascii85" => some (.ascii85 .Encode)
  | "baudot" => some (.baudot .Encode)
  | "unicode" => some (.unicode .Encode)
  | "url" => some (.url .Encode)
  | "punycode" => some (.punycode .Encode)
  | "bootstring" => some (.bootstring .Encode)
  | "integer" => some (.integer .ToDecimal)
  | "block_cipher" => some (.block_cipher .Encrypt "0123456789abcdef" "fedcba9876543210")
  | "rc4" => some (.rc4 .Encrypt "secret")
  | "hash" => some (.hash .SHA256)
  | "hmac" => some (.hmac "secret" .SHA256)
  | "enigma" => some (.enigma EnigmaConfig.default)
  | _ => none

/-- The identifiers with a `create_module` arm. -/
def validIds : List String :=
  ["reverse", "case_transform", "replace", "numeral", "bitwise", "morse",
   "spelling", "caesar", "rot13", "a1z26", "affine", "vigenere", "rail_fence",
   "bacon", "substitution", "polybius", "adfgx", "bifid", "nihilist",
   "tap_code", "trifid", "base64", "base32", "ascii85", "baudot", "unicode",
   "url", "punycode", "bootstring", "integer", "block_cipher", "rc4", "hash",
   "hmac", "enigma"]

/-! ## `src/pipeline.rs` -/

/-- The `Pipeline` struct. -/
structure Pipeline where
  modules : List ModuleState
  input_text : String
  dragged_item_idx : Option Nat
deriving DecidableEq, Repr

/-- The `Default` impl of `Pipeline`. -/
def Pipeline.default : Pipeline :=
  ⟨[], "The quick brown fox jumps over the lazy dog.", none⟩

/-- Rust `Pipeline::add_module`. -/
def Pipeline.add_module (p : Pipeline) (id : String) : Pipeline :=
  match create_module id with
  | some module => { p with modules := p.modules ++ [module] }
  | none => p

/-- Rust `Pipeline::clear`. -/
def Pipeline.clear (_p : Pipeline) : Pipeline :=
  Pipeline.default

/-- The data flow of the module loop of `Pipeline::ui` (lines 45–96 of
`pipeline.rs`): starting from `current_text = input_text`, each stage runs
`current_text = module.process(&current_text)` and displays the result.
`evaluate` returns the list of displayed per-stage outputs and the final
text; `none` if some stage panics. -/
def evaluate : List ModuleState → String → Option (List String × String)
  | [], source => some ([], source)
  | m :: rest, source =>
    (m.process source).bind (fun next =>
      (evaluate rest next).map (fun p => (next :: p.1, p.2)))

/-- Rust `Vec::remove(idx)`: panics (`none`) when `idx` is out of range. -/
def vecRemove (l : List α) (idx : Nat) : Option (List α) :=
  if idx < l.length then some (l.eraseIdx idx) else none

/-- Rust `Vec::swap(from, to)`: panics (`none`) when either index is out of range. -/
def vecSwap (l : List α) (i j : Nat) : Option (List α) :=
  match l[i]?, l[j]? with
  | some a, some b => some ((l.set i b).set j a)
  | _, _ => none

/-- The structural-edit batch at the end of `Pipeline::ui` (lines 137–154 of
`pipeline.rs`): the collected `remove_idx` is applied first (with the
drag-state adjustment), then the collected `swap_request`, each directly on
the vector with no index validation. -/
def applyEdits (modules : List ModuleState) (dragged_item_idx : Option Nat)
    (remove_idx : Option Nat) (swap_request : Option (Nat × Nat)) :
    Option (List ModuleState × Option Nat) :=
  let afterRemove : Option (List ModuleState × Option Nat) :=
    match remove_idx with
    | none => some (modules, dragged_item_idx)
    | some idx =>
      (vecRemove modules idx).map (fun modules =>
        let dragged_item_idx :=
          if dragged_item_idx = some idx then none
          else
            match dragged_item_idx with
            | some dragged =>
              if idx < dragged then some (dragged - 1) else some dragged
            | none => none
        (modules, dragged_item_idx))
  afterRemove.bind (fun state =>
    match swap_request with
    | none => some state
    | some (f, t) =>
      (vecSwap state.1 f t).map (fun modules => (modules, some t)))

/-- The drag-state adjustment performed by the remove arm of the edit batch
(`pipeline.rs` lines 139–147): state referencing exactly the removed index is
cleared; state referencing a greater index is decremented by one. -/
def adjustDrag (dragged_item_idx : Option Nat) (idx : Nat) : Option Nat :=
  if dragged_item_idx = some idx then none
  else
    match dragged_item_idx with
    | some dragged => if idx < dragged then some (dragged - 1) else some dragged
    | none => none

/-! # Theorems -/

/-! ## Evaluation lemmas (`Pipeline::ui` data flow) -/

theorem evaluate_nil (source : String) : evaluate [] source = some ([], source) :=
  rfl

theorem evaluate_cons (m : ModuleState) (rest : List ModuleState) (source : String) :
    evaluate (m :: rest) source
      = (m.process source).bind (fun next =>
          (evaluate rest next).map (fun p => (next :: p.1, p.2))) :=
  rfl

theorem evaluate_length (stages : List ModuleState) (source : String)
    (outs : List String) (final : String)
    (h : evaluate stages source = some (outs, final)) :
    outs.length = stages.length := by
  induction stages generalizing source outs final with
  | nil =>
    simp only [evaluate_nil, Option.some_inj, Prod.mk.injEq] at h
    simp [← h.1]
  | cons m rest ih =>
    rw [evaluate_cons] at h
    rw [Option.bind_eq_some] at h
    obtain ⟨next, _, h⟩ := h
    rw [Option.map_eq_some'] at h
    obtain ⟨p, hp, h⟩ := h
    have := ih next p.1 p.2 (by simpa using hp)
    simp only [Prod.mk.injEq] at h
    simp [← h.1, this]

theorem evaluate_step (stages : List ModuleState) (source : String)
    (outs : List String) (final : String)
    (h : evaluate stages source = some (outs, final)) :
    ∀ i, i < stages.length →
      ModuleState.process (stages.getD i default)
          (if i = 0 then source else outs.getD (i - 1) "")
        = some (outs.getD i "") := by
  induction stages generalizing source outs final with
  | nil => intro i hi; simp at hi
  | cons m rest ih =>
    rw [evaluate_cons, Option.bind_eq_some] at h
    obtain ⟨next, hnext, h⟩ := h
    rw [Option.map_eq_some'] at h
    obtain ⟨p, hp, h⟩ := h
    simp only [Prod.mk.injEq] at h
    obtain ⟨houts, -⟩ := h
    intro i hi
    match i with
    | 0 => simpa [← houts] using hnext
    | j + 1 =>
      have hj := ih next p.1 p.2 (by simpa using hp) j (by simpa using hi)
      rcases j with _ | k
      · simpa [← houts] using hj
      · simpa [← houts] using hj

theorem evaluate_final (stages : List ModuleState) (source : String)
    (outs : List String) (final : String)
    (h : evaluate stages source = some (outs, final)) :
    final = outs.getLastD source := by
  induction stages generalizing source outs final with
  | nil =>
    simp only [evaluate_nil, Option.some_inj, Prod.mk.injEq] at h
    simp [← h.1, ← h.2]
  | cons m rest ih =>
    rw [evaluate_cons, Option.bind_eq_some] at h
    obtain ⟨next, _, h⟩ := h
    rw [Option.map_eq_some'] at h
    obtain ⟨p, hp, h⟩ := h
    simp only [Prod.mk.injEq] at h
    obtain ⟨h1, h2⟩ := h
    subst h1
    subst h2
    rw [List.getLastD_cons]
    exact ih next p.1 p.2 (by simpa using hp)

theorem evaluate_foldlM (stages : List ModuleState) (source : String)
    (outs : List String) (final : String)
    (h : evaluate stages source = some (outs, final)) :
    List.foldlM (fun acc m => ModuleState.process m acc) source stages = some final := by
  induction stages generalizing source outs final with
  | nil =>
    simp only [evaluate_nil, Option.some_inj, Prod.mk.injEq] at h
    simp [← h.2]
  | cons m rest ih =>
    rw [evaluate_cons, Option.bind_eq_some] at h
    obtain ⟨next, hnext, h⟩ := h
    rw [Option.map_eq_some'] at h
    obtain ⟨p, hp, h⟩ := h
    simp only [Prod.mk.injEq] at h
    have := ih next p.1 p.2 (by simpa using hp)
    simp [List.foldlM_cons, hnext, ← h.2, this]

theorem evaluate_append (l₁ l₂ : List ModuleState) (source : String) :
    evaluate (l₁ ++ l₂) source
      = (evaluate l₁ source).bind (fun p =>
          (evaluate l₂ p.2).map (fun q => (p.1 ++ q.1, q.2))) := by
  induction l₁ generalizing source with
  | nil => cases h : evaluate l₂ source <;> simp [evaluate_nil, h]
  | cons m rest ih =>
    simp only [List.cons_append, evaluate_cons, ih]
    cases m.process source with
    | none => rfl
    | some next =>
      simp only [Option.some_bind]
      cases evaluate rest next with
      | none => rfl
      | some p =>
        simp only [Option.map_some', Option.some_bind]
        cases evaluate l₂ p.2 with
        | none => rfl
        | some q => simp

theorem getD_append_cons (l₁ l₂ : List α) (a d : α) :
    (l₁ ++ a :: l₂).getD l₁.length d = a := by
  rw [List.getD_eq_getElem?_getD, List.getElem?_append_right (Nat.le_refl _)]
  simp

/-! ## C1 -/

/-- C1: pipeline evaluation is a pure left fold.  Whenever the module loop of
`Pipeline::ui` completes (no stage panics), the displayed outputs are in
stage-index order and one per stage; the output of stage `i` is
`stages[i].process` applied to the previous displayed output (stage 0
consuming the source text); the final text is the last displayed output, i.e.
the monadic fold of `process` over the stages; and for a two-stage pipeline
`[s1, s2]` on source `T` the result is `([s1(T), s2(s1(T))], s2(s1(T)))`. -/
theorem claim_C1_evaluate_is_left_fold (stages : List ModuleState) (source : String)
    (outs : List String) (final : String)
    (h : evaluate stages source = some (outs, final)) :
    outs.length = stages.length
    ∧ (∀ i, i < stages.length →
        ModuleState.process (stages.getD i default)
            (if i = 0 then source else outs.getD (i - 1) "")
          = some (outs.getD i ""))
    ∧ final = outs.getLastD source
    ∧ List.foldlM (fun acc m => ModuleState.process m acc) source stages = some final
    ∧ (∀ (s1 s2 : ModuleState) (T o1 o2 : String),
        s1.process T = some o1 → s2.process o1 = some o2 →
        evaluate [s1, s2] T = some ([o1, o2], o2)) := by
  refine ⟨evaluate_length _ _ _ _ h, evaluate_step _ _ _ _ h,
    evaluate_final _ _ _ _ h, evaluate_foldlM _ _ _ _ h, ?_⟩
  intro s1 s2 T o1 o2 h1 h2
  simp [evaluate_cons, evaluate_nil, h1, h2]

/-- Witness for C1 at the spec's end-to-end scenario 2: Caesar(shift 3) then
ROT13 on `"abc"`. -/
theorem claim_C1_witness :
    evaluate [ModuleState.caesar 3 .Encode, ModuleState.rot13] "abc"
        = some (["def", "qrs"], "qrs")
    ∧ (["def", "qrs"] : List String).length
        = [ModuleState.caesar 3 .Encode, ModuleState.rot13].length
    ∧ ModuleState.process (ModuleState.rot13) "def" = some "qrs" := by
  have h : evaluate [ModuleState.caesar 3 .Encode, ModuleState.rot13] "abc"
      = some (["def", "qrs"], "qrs") := by rfl
  have hc := claim_C1_evaluate_is_left_fold _ _ _ _ h
  refine ⟨h, hc.1, ?_⟩
  simpa using hc.2.1 1 (by decide)

/-! ## C2 -/

/-- C2 (refuting the claimed validation): the structural-edit batch at the end
of `Pipeline::ui` applies the collected edits with no re-validation, so (a) a
remove and a swap collected in the same cycle panic as soon as the swap
mentions the old last index — each request is individually in range for the
pre-edit length 2 — and (b) an out-of-range remove request panics instead of
being a no-op. -/
theorem claim_C2_edit_batch_panics :
    applyEdits [ModuleState.rot13, ModuleState.spelling] (some 0) (some 0)
        (some (0, 1)) = none
    ∧ applyEdits [ModuleState.rot13] none (some 5) none = none := by
  constructor <;> rfl

/-! ## C3 -/

theorem create_module_eq_none (id : String) (h : id ∉ validIds) :
    create_module id = none := by
  unfold create_module
  split
  all_goals try rfl
  all_goals exact absurd (by decide) h

/-- C3: an unknown identifier creates nothing and `add_module` with it leaves
the pipeline unchanged. -/
theorem claim_C3_unknown_id_noop (id : String) (h : id ∉ validIds) :
    create_module id = none ∧ ∀ p : Pipeline, p.add_module id = p := by
  refine ⟨create_module_eq_none id h, fun p => ?_⟩
  simp [Pipeline.add_module, create_module_eq_none id h]

/-- Witness for C3 at the concrete unknown identifier `"frobnicate"`. -/
theorem claim_C3_witness :
    create_module "frobnicate" = none
    ∧ Pipeline.default.add_module "frobnicate" = Pipeline.default := by
  have h := claim_C3_unknown_id_noop "frobnicate" (by decide)
  exact ⟨h.1, h.2 _⟩

/-! ## C4 -/

/-- C4: a remove request with a valid index `r` (and no swap in the batch)
succeeds, deletes exactly stage `r` — elements before `r` keep their index,
elements after shift down by one — and the drag state is cleared when it was
exactly `r`, decremented when it was greater, kept otherwise. -/
theorem claim_C4_remove_shifts_drag (modules : List ModuleState)
    (dragged : Option Nat) (r : Nat) (h : r < modules.length) :
    applyEdits modules dragged (some r) none
        = some (modules.eraseIdx r, adjustDrag dragged r)
    ∧ (modules.eraseIdx r).length + 1 = modules.length
    ∧ (∀ i, i < r → (modules.eraseIdx r)[i]? = modules[i]?)
    ∧ (∀ i, r ≤ i → (modules.eraseIdx r)[i]? = modules[i + 1]?)
    ∧ adjustDrag (some r) r = none
    ∧ (∀ d, r < d → adjustDrag (some d) r = some (d - 1))
    ∧ (∀ d, d < r → adjustDrag (some d) r = some d) := by
  refine ⟨?_, ?_, ?_, ?_, ?_, ?_, ?_⟩
  · simp [applyEdits, vecRemove, h, adjustDrag]
  · rw [List.length_eraseIdx_of_lt h]; omega
  · intro i hi; rw [List.getElem?_eraseIdx]; simp [hi]
  · intro i hi; rw [List.getElem?_eraseIdx]; simp [Nat.not_lt.mpr hi]
  · simp [adjustDrag]
  · intro d hd
    have : ¬ (some d = some r) := by simp; omega
    simp [adjustDrag, this, hd]
  · intro d hd
    have h1 : ¬ (some d = some r) := by simp; omega
    have h2 : ¬ (r < d) := by omega
    simp [adjustDrag, h1, h2]

/-- Witness for C4 at the spec's concrete example: stages `[A, B, C]` with
`drag_state = 2`; `remove(0)` yields `[B, C]` and `drag_state = 1`. -/
theorem claim_C4_witness :
    applyEdits [ModuleState.caesar 1 .Encode, ModuleState.rot13, ModuleState.spelling]
        (some 2) (some 0) none
      = some ([ModuleState.rot13, ModuleState.spelling], some 1) := by
  have h := (claim_C4_remove_shifts_drag
    [ModuleState.caesar 1 .Encode, ModuleState.rot13, ModuleState.spelling]
    (some 2) 0 (by decide)).1
  simpa [adjustDrag] using h

/-! ## C5 -/

/-- C5: a stage's displayed output depends only on the stage's own
configuration and its incoming text.  If the same module state `m` sits at
position `xs.length` of one pipeline and `zs.length` of another, and the text
flowing into it is equal (the evaluation of the respective prefixes yields
equal final texts), then the displayed outputs of the two occurrences are
equal — regardless of the surrounding stages and of the positions. -/
theorem claim_C5_process_depends_only_on_config_and_input (m : ModuleState)
    (xs ys zs ws : List ModuleState) (s t : String)
    (px pz o1 o2 : List String × String)
    (hx : evaluate xs s = some px) (hz : evaluate zs t = some pz)
    (heq : px.2 = pz.2)
    (h1 : evaluate (xs ++ m :: ys) s = some o1)
    (h2 : evaluate (zs ++ m :: ws) t = some o2) :
    o1.1.getD xs.length "" = o2.1.getD zs.length ""
    ∧ ModuleState.process m px.2 = some (o1.1.getD xs.length "") := by
  rw [evaluate_append, hx, Option.some_bind, Option.map_eq_some'] at h1
  obtain ⟨q1, hq1, ho1⟩ := h1
  rw [evaluate_append, hz, Option.some_bind, Option.map_eq_some'] at h2
  obtain ⟨q2, hq2, ho2⟩ := h2
  rw [evaluate_cons, Option.bind_eq_some] at hq1
  obtain ⟨next1, hn1, hq1⟩ := hq1
  rw [Option.map_eq_some'] at hq1
  obtain ⟨p1, -, hq1⟩ := hq1
  rw [evaluate_cons, Option.bind_eq_some] at hq2
  obtain ⟨next2, hn2, hq2⟩ := hq2
  rw [Option.map_eq_some'] at hq2
  obtain ⟨p2, -, hq2⟩ := hq2
  have hlen1 : px.1.length = xs.length := evaluate_length _ _ _ _ (by simpa using hx)
  have hlen2 : pz.1.length = zs.length := evaluate_length _ _ _ _ (by simpa using hz)
  have e1 : o1.1.getD xs.length "" = next1 := by
    rw [← ho1, ← hq1, ← hlen1]
    exact getD_append_cons _ _ _ _
  have e2 : o2.1.getD zs.length "" = next2 := by
    rw [← ho2, ← hq2, ← hlen2]
    exact getD_append_cons _ _ _ _
  have : next1 = next2 := by
    rw [heq] at hn1
    rw [hn1] at hn2
    exact Option.some_inj.mp hn2
  refine ⟨by rw [e1, e2, this], ?_⟩
  rw [e1]
  exact hn1

/-- Witness for C5: ROT13 at position 1 of `[caesar 3, rot13]` from `"abc"`
and at position 0 of `[rot13, reverse]` from `"def"` sees the same incoming
text `"def"` and displays the same `"qrs"`. -/
theorem claim_C5_witness :
    (["def", "qrs"] : List String).getD 1 "" = (["qrs", "srq"] : List String).getD 0 ""
    ∧ ModuleState.process ModuleState.rot13 "def" = some "qrs" := by
  have h := claim_C5_process_depends_only_on_config_and_input
    ModuleState.rot13 [ModuleState.caesar 3 .Encode] [] [] [ModuleState.reverse]
    "abc" "def" (["def"], "def") ([], "def") (["def", "qrs"], "qrs")
    (["qrs", "srq"], "srq") (by rfl) (by rfl) (by rfl) (by rfl) (by rfl)
  exact h

/-! ## C6 -/

/-- C6: every identifier in the catalog creates a present instance whose
`process` applied to the empty string returns normally (no panic, in
particular no `none` from the RC4/ADFGX/Enigma panic sites). -/
theorem claim_C6_valid_ids_create_and_process_empty (id : String)
    (h : id ∈ validIds) :
    ((create_module id).bind (fun m => m.process "")).isSome = true := by
  fin_cases h <;> rfl

/-- Witness for C6 at the identifier `"caesar"`. -/
theorem claim_C6_witness :
    ("caesar" ∈ validIds)
    ∧ ((create_module "caesar").bind (fun m => m.process "")).isSome = true :=
  ⟨by decide, claim_C6_valid_ids_create_and_process_empty "caesar" (by decide)⟩

/-! ## C7 -/

theorem affine_guard_iff_not_coprime :
    ∀ m : Nat, m < 26 → ((m % 2 = 0 ∨ m = 13) ↔ ¬ Nat.Coprime m 26) := by
  decide

/-- C7: the Affine module returns the descriptive coprimality-error string for
exactly those coefficients whose residue mod 26 is not coprime to 26; for
coprime residues it performs the per-character affine map (and in either case
it is a total function — no panic). -/
theorem claim_C7_affine_coprimality_error (a b : Int) (mode : CipherMode)
    (input : String) :
    (¬ Nat.Coprime (a % 26).toNat 26 →
      affine_process a b mode input = affineErrorString (a % 26))
    ∧ (Nat.Coprime (a % 26).toNat 26 →
      affine_process a b mode input
        = String.mk (input.toList.map (affineChar (a % 26) (b % 26) mode))) := by
  have hup : (a % 26).toNat < 26 := by omega
  have hcast : ((a % 26).toNat : Int) = a % 26 := by omega
  constructor
  · intro hcop
    have hguard : (a % 26) % 2 = 0 ∨ (a % 26) = 13 := by
      have := (affine_guard_iff_not_coprime _ hup).mpr hcop
      omega
    simp only [affine_process]
    rw [if_pos hguard]
  · intro hcop
    have hguard : ¬ ((a % 26) % 2 = 0 ∨ (a % 26) = 13) := by
      have hiff := affine_guard_iff_not_coprime _ hup
      have : ¬ ((a % 26).toNat % 2 = 0 ∨ (a % 26).toNat = 13) :=
        fun hc => (hiff.mp hc) hcop
      omega
    simp only [affine_process]
    rw [if_neg hguard]

/-- Witness for C7 at the spec's end-to-end scenario 4: `a = 4` (even, not
coprime to 26) yields the error string; the default `a = 5` is coprime and
transforms. -/
theorem claim_C7_witness :
    affine_process 4 8 .Encode "abc" = "Error: 'a' (4) must be coprime to 26."
    ∧ affine_process 5 8 .Encode "abc"
        = String.mk ("abc".toList.map (affineChar 5 8 .Encode)) := by
  constructor
  · have h := (claim_C7_affine_coprimality_error 4 8 .Encode "abc").1 (by decide)
    simpa [affineErrorString] using h
  · have h := (claim_C7_affine_coprimality_error 5 8 .Encode "abc").2 (by decide)
    simpa using h

/-! ## C8 -/

/-- C8: the Vigenère module's behaviour depends on its key only through the
letters-only, case-folded form (`key_clean`), and a key with no (ASCII)
alphabetic character — so the filtered key is empty — makes `process` the
identity on every input. -/
theorem claim_C8_vigenere_filtered_key (key : String) (mode : A1Z26Mode)
    (input : String) :
    (∀ key2, vigenereKeyClean key2 = vigenereKeyClean key →
        vigenere_process key2 mode input = vigenere_process key mode input)
    ∧ ((∀ c ∈ key.toList, c.isAlpha = false) →
        vigenere_process key mode input = input) := by
  constructor
  · intro key2 hkc
    simp only [vigenere_process, hkc]
  · intro hnone
    have hclean : vigenereKeyClean key = [] := by
      simp only [vigenereKeyClean, List.map_eq_nil_iff, List.filter_eq_nil_iff]
      intro c hc
      simp [hnone c hc]
    simp [vigenere_process, hclean]

/-- Witness for C8 with the letter-free key `"12 !"` on input `"attack"`, and
key-cleaning invariance between `"K-e-Y!"` and `"key"`. -/
theorem claim_C8_witness :
    vigenere_process "12 !" .Encode "attack" = "attack"
    ∧ vigenere_process "K-e-Y!" .Encode "attack" = vigenere_process "KeY" .Encode "attack" := by
  constructor
  · exact (claim_C8_vigenere_filtered_key "12 !" .Encode "attack").2 (by decide)
  · exact (claim_C8_vigenere_filtered_key "KeY" .Encode "attack").1 "K-e-Y!" (by decide)

/-! ## C9 -/

/-- C9: the Caesar module's shift is reduced mod 26 with wrapping: in both
modes and on every input, shifting by `s + 26` or by the Euclidean residue
`s % 26` behaves exactly like shifting by `s`, and non-alphabetic characters
pass through unchanged at their positions. -/
theorem claim_C9_caesar_shift_mod26 (shift : Int) (mode : CipherMode)
    (input : String) :
    caesar_process (shift + 26) mode input = caesar_process shift mode input
    ∧ caesar_process (shift % 26) mode input = caesar_process shift mode input
    ∧ (∀ (i : Nat) (c : Char), input.toList[i]? = some c → c.isAlpha = false →
        (caesar_process shift mode input).toList[i]? = some c) := by
  have e1 : (shift + 26) % 26 = shift % 26 := by omega
  have e2 : (shift % 26) % 26 = shift % 26 := by omega
  refine ⟨?_, ?_, ?_⟩
  · cases mode <;> simp [caesar_process, e1]
  · cases mode <;> simp [caesar_process, e2]
  · intro i c hi hc
    cases mode with
    | Encode =>
      rw [show (caesar_process shift .Encode input).toList
          = input.toList.map (caesarShiftChar (shift % 26).toNat) from rfl,
        List.getElem?_map, hi, Option.map_some']
      simp [caesarShiftChar, hc]
    | Decode =>
      rw [show (caesar_process shift .Decode input).toList
          = input.toList.map (caesarShiftChar (26 - shift % 26).toNat) from rfl,
        List.getElem?_map, hi, Option.map_some']
      simp [caesarShiftChar, hc]

/-- Witness for C9: shift `-1` behaves as shift `25` (`-1 + 26`), and the
space in `"ab c"` is preserved. -/
theorem claim_C9_witness :
    caesar_process 25 .Encode "ab c" = caesar_process (-1) .Encode "ab c"
    ∧ ("ab c".toList[2]? = some ' ')
    ∧ (caesar_process (-1) .Encode "ab c").toList[2]? = some ' ' := by
  have h := claim_C9_caesar_shift_mod26 (-1) .Encode "ab c"
  exact ⟨by simpa using h.1, by rfl, h.2.2 2 ' ' (by rfl) (by decide)⟩

/-! ## C10: rail fence round trip -/

theorem railSeqGo_length (R : Nat) :
    ∀ (n rail : Nat) (dir : Int), (railSeqGo R n rail dir).length = n := by
  intro n
  induction n with
  | zero => intro rail dir; rfl
  | succ m ih => intro rail dir; simp [railSeqGo, ih]

theorem railStep_inv {R rail : Nat} {dir : Int} (hR : 2 ≤ R) (h : rail < R)
    (hd : dir = 1 ∨ dir = -1) :
    (railStep R rail dir).1 < R
    ∧ ((railStep R rail dir).2 = 1 ∨ (railStep R rail dir).2 = -1) := by
  unfold railStep
  by_cases h0 : rail = 0
  · simp [h0]; omega
  · by_cases h1 : rail = R - 1
    · subst h1
      simp [h0]
      omega
    · rcases hd with hd | hd <;> simp [h0, h1, hd] <;> omega

theorem railSeqGo_lt {R : Nat} (hR : 2 ≤ R) :
    ∀ (n rail : Nat) (dir : Int), rail < R → (dir = 1 ∨ dir = -1) →
      ∀ x ∈ railSeqGo R n rail dir, x < R := by
  intro n
  induction n with
  | zero => intro rail dir _ _ x hx; simp [railSeqGo] at hx
  | succ m ih =>
    intro rail dir hrail hdir x hx
    simp only [railSeqGo, List.mem_cons] at hx
    rcases hx with rfl | hx
    · exact hrail
    · obtain ⟨h1, h2⟩ := railStep_inv hR hrail hdir
      exact ih _ _ h1 h2 x hx

theorem railSeq_getD_lt {R len : Nat} (hR : 2 ≤ R) (i : Nat) (hi : i < len) :
    (railSeq R len).getD i 0 < R := by
  have hlen : (railSeq R len).length = len := railSeqGo_length R len 0 1
  have hmem : (railSeq R len).getD i 0 ∈ railSeq R len := by
    rw [List.getD_eq_getElem?_getD, List.getElem?_eq_getElem (by omega)]
    exact List.getElem_mem _
  exact railSeqGo_lt hR len 0 1 (by omega) (Or.inl rfl) _ hmem

theorem railEncodeGo_length (R : Nat) :
    ∀ (cs : List Char) (fence : List (List Char)) (rail : Nat) (dir : Int),
      (railEncodeGo R cs fence rail dir).length = fence.length := by
  intro cs
  induction cs with
  | nil => intro fence rail dir; rfl
  | cons c cs ih =>
    intro fence rail dir
    simp only [railEncodeGo, ih, List.length_set]

theorem railEncodeGo_getD {R : Nat} (hR : 2 ≤ R) :
    ∀ (cs : List Char) (fence : List (List Char)) (rail : Nat) (dir : Int),
      fence.length = R → rail < R → (dir = 1 ∨ dir = -1) → ∀ (r : Nat),
      (railEncodeGo R cs fence rail dir).getD r []
        = fence.getD r []
          ++ ((cs.zip (railSeqGo R cs.length rail dir)).filter
                (fun p => p.2 = r)).map Prod.fst := by
  intro cs
  induction cs with
  | nil =>
    intro fence rail dir hlen hrail hdir r
    simp [railEncodeGo, railSeqGo]
  | cons c cs ih =>
    intro fence rail dir hlen hrail hdir r
    obtain ⟨hrail', hdir'⟩ := railStep_inv hR hrail hdir
    have hlen' : (fence.set rail (fence.getD rail [] ++ [c])).length = R := by
      simp [hlen]
    have step := ih (fence.set rail (fence.getD rail [] ++ [c]))
      (railStep R rail dir).1 (railStep R rail dir).2 hlen' hrail' hdir' r
    simp only [railEncodeGo]
    rw [step]
    simp only [List.length_cons, railSeqGo, List.zip_cons_cons, List.filter_cons]
    by_cases hr : rail = r
    · subst hr
      have hset : (fence.set rail (fence.getD rail [] ++ [c])).getD rail []
          = fence.getD rail [] ++ [c] := by
        rw [List.getD_eq_getElem?_getD, List.getElem?_set]
        simp [hlen, hrail]
      rw [hset]
      simp [List.append_assoc]
    · have hset : (fence.set rail (fence.getD rail [] ++ [c])).getD r []
          = fence.getD r [] := by
        rw [List.getD_eq_getElem?_getD, List.getElem?_set, if_neg hr,
          ← List.getD_eq_getElem?_getD]
      rw [hset]
      simp [hr]

theorem range_map_getD (l : List α) (d : α) :
    (List.range l.length).map (fun i => l.getD i d) = l := by
  apply List.ext_getElem
  · simp
  · intro n h1 h2
    simp only [List.getElem_map, List.getElem_range]
    rw [List.getD_eq_getElem?_getD, List.getElem?_eq_getElem h2]
    rfl

theorem railEncode_eq_buckets {R : Nat} (hR : 2 ≤ R) (chars : List Char) :
    railEncode R chars
      = (List.range R).flatMap (fun r =>
          ((chars.zip (railSeq R chars.length)).filter
            (fun p => p.2 = r)).map Prod.fst) := by
  unfold railEncode
  have hlen : (railEncodeGo R chars (List.replicate R []) 0 1).length = R := by
    rw [railEncodeGo_length]; simp
  have : railEncodeGo R chars (List.replicate R []) 0 1
      = (List.range R).map (fun r =>
          (railEncodeGo R chars (List.replicate R []) 0 1).getD r []) := by
    conv_lhs => rw [← range_map_getD (railEncodeGo R chars (List.replicate R []) 0 1) []]
    rw [hlen]
  rw [this, List.flatMap_def]
  congr 1
  apply List.map_congr_left
  intro r hr
  rw [railEncodeGo_getD hR chars (List.replicate R []) 0 1 (by simp)
    (by omega) (Or.inl rfl) r]
  have : (List.replicate R ([] : List Char)).getD r [] = [] := by
    rw [List.getD_eq_getElem?_getD, List.getElem?_replicate]
    by_cases h : r < R <;> simp [h]
  rw [this, List.nil_append]
  rfl

theorem zip_filter_map_fst (d : Char) :
    ∀ (chars : List Char) (rs : List Nat) (r : Nat), chars.length = rs.length →
      ((chars.zip rs).filter (fun p => p.2 = r)).map Prod.fst
        = ((List.range chars.length).filter (fun i => rs.getD i 0 = r)).map
            (fun i => chars.getD i d) := by
  intro chars
  induction chars with
  | nil => intro rs r h; simp
  | cons c cs ih =>
    intro rs r h
    cases rs with
    | nil => simp at h
    | cons k ks =>
      simp only [List.length_cons] at h
      have h' : cs.length = ks.length := by omega
      have tail := ih ks r h'
      have rhs :
          ((List.range (c :: cs).length).filter
              (fun i => (k :: ks).getD i 0 = r)).map (fun i => (c :: cs).getD i d)
            = (if (decide (k = r)) = true then
                c :: ((List.range cs.length).filter (fun i => ks.getD i 0 = r)).map
                  (fun i => cs.getD i d)
              else ((List.range cs.length).filter (fun i => ks.getD i 0 = r)).map
                  (fun i => cs.getD i d)) := by
        rw [show (c :: cs).length = cs.length + 1 from rfl, List.range_succ_eq_map,
          List.filter_cons]
        have hfm : List.filter (fun i => decide ((k :: ks).getD i 0 = r))
              (List.map Nat.succ (List.range cs.length))
            = List.map Nat.succ
                (List.filter (fun i => decide (ks.getD i 0 = r))
                  (List.range cs.length)) := by
          rw [List.filter_map]
          rfl
        by_cases hk : k = r
        · rw [if_pos (by simpa using hk)]
          simp only [List.map_cons, hfm, List.map_map]
          rw [if_pos (by simpa using hk)]
          rfl
        · rw [if_neg (by simpa using hk), hfm, List.map_map]
          rw [if_neg (by simpa using hk)]
          rfl
      rw [rhs]
      rw [List.zip_cons_cons, List.filter_cons]
      by_cases hk : k = r
      · rw [if_pos (by simpa using hk), if_pos (by simpa using hk)]
        simp only [List.map_cons]
        rw [tail]
      · rw [if_neg (by simpa using hk), if_neg (by simpa using hk)]
        rw [tail]

theorem railEncode_sigma {R : Nat} (hR : 2 ≤ R) (chars : List Char) :
    railEncode R chars
      = (railSigma R chars.length).map (fun i => chars.getD i '\x00') := by
  rw [railEncode_eq_buckets hR chars]
  unfold railSigma
  rw [List.map_flatMap, List.flatMap_def, List.flatMap_def]
  congr 1
  apply List.map_congr_left
  intro r _
  exact zip_filter_map_fst '\x00' chars (railSeq R chars.length) r
    (railSeqGo_length R chars.length 0 1).symm

theorem getD_append_length_add (l₁ l₂ : List α) (m : Nat) (d : α) :
    (l₁ ++ l₂).getD (l₁.length + m) d = l₂.getD m d := by
  rw [List.getD_eq_getElem?_getD, List.getElem?_append_right (by omega)]
  have h : l₁.length + m - l₁.length = m := by omega
  rw [h, ← List.getD_eq_getElem?_getD]

theorem range_split (a b : Nat) (h : a < b) :
    List.range b = List.range a ++ a :: List.range' (a + 1) (b - (a + 1)) := by
  rw [List.range_eq_range', List.range_eq_range']
  have h2 : List.range' 0 a ++ List.range' (0 + 1 * a) (b - a)
      = List.range' 0 ((b - a) + a) := List.range'_append 0 a (b - a) 1
  simp only [Nat.zero_add, Nat.one_mul] at h2
  have h3 : (b - a) + a = b := by omega
  rw [h3] at h2
  rw [← h2]
  congr 1
  have h4 : b - a = (b - (a + 1)) + 1 := by omega
  rw [h4, List.range'_succ]

theorem countP_eq_filter_range (l : List Nat) (p : Nat → Bool) :
    l.countP p = ((List.range l.length).filter (fun i => p (l.getD i 0))).length := by
  induction l using List.reverseRecOn with
  | nil => simp
  | append_singleton xs x ih =>
    rw [List.countP_append, List.length_append,
      show ([x] : List Nat).length = 1 from rfl,
      List.range_succ, List.filter_append, List.length_append]
    have h1 : (List.range xs.length).filter (fun i => p ((xs ++ [x]).getD i 0))
        = (List.range xs.length).filter (fun i => p (xs.getD i 0)) := by
      apply List.filter_congr
      intro i hi
      rw [List.getD_append _ _ _ _ (List.mem_range.mp hi)]
    have h2 : (([xs.length] : List Nat).filter
          (fun i => p ((xs ++ [x]).getD i 0))).length
        = List.countP p [x] := by
      have hx : (xs ++ [x]).getD xs.length 0 = x := by
        rw [List.getD_eq_getElem?_getD, List.getElem?_concat_length]
        rfl
      rw [List.filter_cons, List.filter_nil]
      simp only [hx]
      rw [List.countP_cons, List.countP_nil]
      by_cases hp : p x = true
      · simp [hp]
      · simp [hp]
    rw [h1, h2, ih]

theorem sum_indicator_zero (x : Nat) (l : List Nat) (h : x ∉ l) :
    (l.map (fun r => if x = r then 1 else 0)).sum = 0 := by
  apply List.sum_eq_zero
  intro y hy
  obtain ⟨r, hr, rfl⟩ := List.mem_map.mp hy
  have : x ≠ r := fun he => h (he ▸ hr)
  simp [this]

theorem sum_indicator_one (x R : Nat) (h : x < R) :
    ((List.range R).map (fun r => if x = r then 1 else 0)).sum = 1 := by
  induction R with
  | zero => omega
  | succ n ih =>
    rw [List.range_succ, List.map_append, List.sum_append]
    by_cases hx : x = n
    · subst hx
      rw [sum_indicator_zero x (List.range x) (by simp)]
      simp
    · have hlt : x < n := by omega
      rw [ih hlt]
      simp [hx]

theorem sum_range_countP (l : List Nat) (R : Nat) (h : ∀ x ∈ l, x < R) :
    ((List.range R).map (fun r => l.countP (fun y => y = r))).sum = l.length := by
  induction l with
  | nil => simp
  | cons x xs ih =>
    have hx : x < R := h x (by simp)
    have hxs : ∀ y ∈ xs, y < R := fun y hy => h y (by simp [hy])
    simp only [List.countP_cons, decide_eq_true_eq]
    rw [List.sum_map_add, ih hxs, sum_indicator_one x R hx]
    simp

theorem railSigma_length {R len : Nat} (hR : 2 ≤ R) :
    (railSigma R len).length = len := by
  unfold railSigma
  rw [List.length_flatMap]
  have hlen : (railSeq R len).length = len := railSeqGo_length R len 0 1
  have hstep : ∀ r : Nat,
      ((List.range len).filter (fun i => (railSeq R len).getD i 0 = r)).length
        = (railSeq R len).countP (fun y => y = r) := by
    intro r
    rw [countP_eq_filter_range (railSeq R len) (fun y => decide (y = r)), hlen]
  have hmapeq : List.map
        (List.length ∘ fun r =>
          (List.range len).filter (fun i => (railSeq R len).getD i 0 = r))
        (List.range R)
      = List.map (fun r => (railSeq R len).countP (fun y => y = r))
        (List.range R) := by
    apply List.map_congr_left
    intro r _
    exact hstep r
  rw [hmapeq, sum_range_countP (railSeq R len) R
    (fun x hx => railSeqGo_lt hR len 0 1 (by omega) (Or.inl rfl) x hx), hlen]

theorem railSigma_getD {R len i : Nat} (hR : 2 ≤ R) (hi : i < len) :
    (railSigma R len).getD (railPos R len i) 0 = i
    ∧ railPos R len i < len := by
  have hkR : (railSeq R len).getD i 0 < R := railSeq_getD_lt hR i hi
  have hsigma : railSigma R len
      = (List.range ((railSeq R len).getD i 0)).flatMap (fun r =>
          (List.range len).filter (fun j => (railSeq R len).getD j 0 = r))
        ++ ((List.range len).filter
              (fun j => (railSeq R len).getD j 0 = (railSeq R len).getD i 0)
            ++ (List.range' ((railSeq R len).getD i 0 + 1)
                  (R - ((railSeq R len).getD i 0 + 1))).flatMap (fun r =>
                (List.range len).filter (fun j => (railSeq R len).getD j 0 = r))) := by
    unfold railSigma
    rw [range_split _ _ hkR, List.flatMap_append, List.flatMap_cons]
  have hBk : (List.range len).filter
        (fun j => (railSeq R len).getD j 0 = (railSeq R len).getD i 0)
      = (List.range i).filter
          (fun j => (railSeq R len).getD j 0 = (railSeq R len).getD i 0)
        ++ i :: (List.range' (i + 1) (len - (i + 1))).filter
              (fun j => (railSeq R len).getD j 0 = (railSeq R len).getD i 0) := by
    rw [range_split i len hi, List.filter_append, List.filter_cons]
    rw [if_pos (by simp)]
  have hpre : ((List.range ((railSeq R len).getD i 0)).flatMap (fun r =>
        (List.range len).filter (fun j => (railSeq R len).getD j 0 = r))).length
      = ((List.range ((railSeq R len).getD i 0)).map (fun r =>
          ((List.range len).filter
            (fun j => (railSeq R len).getD j 0 = r)).length)).sum := by
    rw [List.length_flatMap]
    rfl
  have hpos : railPos R len i
      = ((List.range ((railSeq R len).getD i 0)).flatMap (fun r =>
          (List.range len).filter (fun j => (railSeq R len).getD j 0 = r))).length
        + ((List.range i).filter
            (fun j => (railSeq R len).getD j 0 = (railSeq R len).getD i 0)).length := by
    rw [hpre]
    rfl
  constructor
  · rw [hsigma, hpos, getD_append_length_add, hBk, List.append_assoc,
      List.cons_append, getD_append_cons]
  · have hslen := @railSigma_length R len hR
    rw [hsigma] at hslen
    rw [hBk] at hslen
    simp only [List.length_append, List.length_cons] at hslen
    rw [hpos]
    omega

theorem railFillRow_fst_getD :
    ∀ (ms : List Nat) (cs : List Char) (j : Nat),
      ((railFillRow ms cs).1).getD j '\x00'
        = if ms.getD j 0 = 1 then
            cs.getD ((ms.take j).countP (fun y => y = 1)) '\x00'
          else '\x00' := by
  intro ms
  induction ms with
  | nil => intro cs j; simp [railFillRow]
  | cons m ms ih =>
    intro cs j
    by_cases hm : m = 1
    · subst hm
      cases cs with
      | nil =>
        rcases hrc : railFillRow ms [] with ⟨row, rest⟩
        have hstep : railFillRow (1 :: ms) [] = ('\x00' :: row, rest) := by
          simp [railFillRow, hrc]
        rw [hstep]
        match j with
        | 0 => simp
        | t + 1 =>
          have hih := ih [] t
          rw [hrc] at hih
          simp only [List.getD_cons_succ, List.take_succ_cons, List.countP_cons,
            List.getD_cons_zero] at *
          rw [hih]
          by_cases hms : ms.getD t 0 = 1 <;> simp [hms]
      | cons ch cs' =>
        rcases hrc : railFillRow ms cs' with ⟨row, rest⟩
        have hstep : railFillRow (1 :: ms) (ch :: cs') = (ch :: row, rest) := by
          simp [railFillRow, hrc]
        rw [hstep]
        match j with
        | 0 => simp
        | t + 1 =>
          have hih := ih cs' t
          rw [hrc] at hih
          simp only [List.getD_cons_succ, List.take_succ_cons, List.countP_cons,
            List.getD_cons_zero] at *
          rw [hih]
          by_cases hms : ms.getD t 0 = 1 <;> simp [hms]
    · rcases hrc : railFillRow ms cs with ⟨row, rest⟩
      have hstep : railFillRow (m :: ms) cs = ('\x00' :: row, rest) := by
        simp [railFillRow, hm, hrc]
      rw [hstep]
      match j with
      | 0 => simp [hm]
      | t + 1 =>
        have hih := ih cs t
        rw [hrc] at hih
        simp only [List.getD_cons_succ, List.take_succ_cons, List.countP_cons,
          List.getD_cons_zero] at *
        rw [hih]
        by_cases hms : ms.getD t 0 = 1 <;> simp [hms, hm]

theorem railFillRow_snd :
    ∀ (ms : List Nat) (cs : List Char),
      (railFillRow ms cs).2 = cs.drop (ms.countP (fun y => y = 1)) := by
  intro ms
  induction ms with
  | nil => intro cs; simp [railFillRow]
  | cons m ms ih =>
    intro cs
    by_cases hm : m = 1
    · subst hm
      cases cs with
      | nil =>
        rcases hrc : railFillRow ms [] with ⟨row, rest⟩
        have hstep : railFillRow (1 :: ms) [] = ('\x00' :: row, rest) := by
          simp [railFillRow, hrc]
        rw [hstep]
        have hih := ih []
        rw [hrc] at hih
        simp only [List.countP_cons]
        simp at hih ⊢
        simp [hih]
      | cons ch cs' =>
        rcases hrc : railFillRow ms cs' with ⟨row, rest⟩
        have hstep : railFillRow (1 :: ms) (ch :: cs') = (ch :: row, rest) := by
          simp [railFillRow, hrc]
        rw [hstep]
        have hih := ih cs'
        rw [hrc] at hih
        have hcnt : List.countP (fun y => decide (y = 1)) (1 :: ms)
            = List.countP (fun y => decide (y = 1)) ms + 1 := by simp
        rw [hcnt, List.drop_succ_cons]
        simpa using hih
    · rcases hrc : railFillRow ms cs with ⟨row, rest⟩
      have hstep : railFillRow (m :: ms) cs = ('\x00' :: row, rest) := by
        simp [railFillRow, hm, hrc]
      rw [hstep]
      have hih := ih cs
      rw [hrc] at hih
      simp only [List.countP_cons, decide_eq_true_eq, if_neg hm, Nat.add_zero]
      exact hih

theorem railFillRows_getD :
    ∀ (rows : List (List Nat)) (cs : List Char) (r : Nat),
      (railFillRows rows cs).getD r []
        = (railFillRow (rows.getD r [])
            (cs.drop (((rows.take r).map
              (fun ms => ms.countP (fun y => y = 1))).sum))).1 := by
  intro rows
  induction rows with
  | nil =>
    intro cs r
    simp [railFillRows, railFillRow]
  | cons row rows ih =>
    intro cs r
    rcases hrc : railFillRow row cs with ⟨filledRow, rest⟩
    have hstep : railFillRows (row :: rows) cs = filledRow :: railFillRows rows rest := by
      simp [railFillRows, hrc]
    rw [hstep]
    match r with
    | 0 =>
      simp only [List.getD_cons_zero, List.take_zero, List.map_nil, List.sum_nil,
        List.drop_zero]
      rw [hrc]
    | t + 1 =>
      simp only [List.getD_cons_succ, List.take_succ_cons, List.map_cons,
        List.sum_cons]
      rw [ih rest t]
      have hrest : rest = cs.drop (row.countP (fun y => y = 1)) := by
        have := railFillRow_snd row cs
        rw [hrc] at this
        exact this
      rw [hrest, List.drop_drop]

theorem railMarks_getD {R len r : Nat} (hr : r < R) :
    (railMarks R len).getD r []
      = (railSeq R len).map (fun rc => if rc = r then 1 else 0) := by
  unfold railMarks
  rw [List.getD_eq_getElem?_getD, List.getElem?_map, List.getElem?_range hr]
  rfl

theorem countP_marks_row (rs : List Nat) (r : Nat) :
    (rs.map (fun rc => if rc = r then 1 else 0)).countP (fun y => y = 1)
      = rs.countP (fun y => y = r) := by
  rw [List.countP_map]
  apply List.countP_congr
  intro rc _
  by_cases h : rc = r <;> simp [Function.comp, h]

theorem countP_take_eq_filter_range (rs : List Nat) (n : Nat) (hn : n ≤ rs.length)
    (k : Nat) :
    (rs.take n).countP (fun y => y = k)
      = ((List.range n).filter (fun j => rs.getD j 0 = k)).length := by
  rw [countP_eq_filter_range]
  have hlen : (rs.take n).length = n := by
    rw [List.length_take]
    omega
  rw [hlen]
  congr 1
  apply List.filter_congr
  intro j hj
  have hjn : j < n := List.mem_range.mp hj
  have hgd : (rs.take n).getD j 0 = rs.getD j 0 := by
    rw [List.getD_eq_getElem?_getD, List.getD_eq_getElem?_getD, List.getElem?_take]
    simp [hjn]
  rw [hgd]

theorem railDecode_eq {R : Nat} (hR : 2 ≤ R) (cipher : List Char) :
    railDecode R cipher
      = (List.range cipher.length).map (fun i =>
          cipher.getD (railPos R cipher.length i) '\x00') := by
  have hrslen : (railSeq R cipher.length).length = cipher.length :=
    railSeqGo_length R cipher.length 0 1
  apply List.ext_getElem
  · unfold railDecode
    simp [List.enum_length, hrslen]
  · intro n h1 h2
    have hn : n < cipher.length := by simpa using h2
    have hnr : n < (railSeq R cipher.length).enum.length := by
      simpa [List.enum_length, hrslen] using hn
    have lhs1 : (railDecode R cipher)[n]
        = ((railFillRows (railMarks R cipher.length) cipher).getD
            ((railSeq R cipher.length).enum[n]).2 []).getD
          ((railSeq R cipher.length).enum[n]).1 '\x00' := by
      unfold railDecode
      rw [List.getElem_map]
    have henum : (railSeq R cipher.length).enum[n]
        = (n, (railSeq R cipher.length).getD n 0) := by
      rw [List.getElem_enum]
      congr 1
      rw [List.getD_eq_getElem?_getD, List.getElem?_eq_getElem (by omega)]
      rfl
    rw [lhs1, henum]
    have hkR : (railSeq R cipher.length).getD n 0 < R := railSeq_getD_lt hR n hn
    -- the filled fence row at this rail
    rw [railFillRows_getD, railMarks_getD hkR]
    -- the drop offset: sum of the 1-counts of the earlier rows
    have htake : (railMarks R cipher.length).take ((railSeq R cipher.length).getD n 0)
        = (List.range ((railSeq R cipher.length).getD n 0)).map (fun r =>
            (railSeq R cipher.length).map (fun rc => if rc = r then 1 else 0)) := by
      unfold railMarks
      rw [← List.map_take, List.take_range]
      congr 1
      congr 1
      omega
    rw [htake, List.map_map, railFillRow_fst_getD]
    have hb : n < (railSeq R cipher.length).length := by omega
    have hcond : ((railSeq R cipher.length).map
          (fun rc => if rc = (railSeq R cipher.length).getD n 0 then 1 else 0)).getD n 0
        = 1 := by
      rw [List.getD_eq_getElem?_getD, List.getElem?_map,
        List.getElem?_eq_getElem (by omega)]
      have : (railSeq R cipher.length)[n]
          = (railSeq R cipher.length).getD n 0 := by
        rw [List.getD_eq_getElem?_getD, List.getElem?_eq_getElem (by omega)]
        rfl
      simp [this]
    rw [if_pos hcond]
    -- inner count: marked cells before column n on this rail
    have hinner : (((railSeq R cipher.length).map
            (fun rc => if rc = (railSeq R cipher.length).getD n 0 then 1 else 0)).take n).countP
          (fun y => y = 1)
        = ((List.range n).filter (fun j =>
            (railSeq R cipher.length).getD j 0 = (railSeq R cipher.length).getD n 0)).length := by
      rw [← List.map_take, countP_marks_row]
      exact countP_take_eq_filter_range _ n (by omega) _
    rw [hinner]
    -- getD of drop: shift by the offset
    rw [List.getD_eq_getElem?_getD, List.getElem?_drop, ← List.getD_eq_getElem?_getD]
    -- identify the total index with railPos
    have houter : (((List.range ((railSeq R cipher.length).getD n 0)).map
          ((fun ms => List.countP (fun y => y = 1) ms) ∘ (fun r =>
            (railSeq R cipher.length).map (fun rc => if rc = r then 1 else 0)))).sum)
        = ((List.range ((railSeq R cipher.length).getD n 0)).map (fun r =>
            ((List.range cipher.length).filter (fun j =>
              (railSeq R cipher.length).getD j 0 = r)).length)).sum := by
      congr 1
      apply List.map_congr_left
      intro r _
      show ((railSeq R cipher.length).map
          (fun rc => if rc = r then 1 else 0)).countP (fun y => y = 1) = _
      rw [countP_marks_row]
      rw [countP_eq_filter_range, hrslen]
    rw [houter]
    have hrhs : ((List.range cipher.length).map (fun i =>
          cipher.getD (railPos R cipher.length i) '\x00'))[n]
        = cipher.getD (railPos R cipher.length n) '\x00' := by
      rw [List.getElem_map, List.getElem_range]
    rw [hrhs]
    rfl

theorem railDecode_railEncode {R : Nat} (hR : 2 ≤ R) (chars : List Char) :
    railDecode R (railEncode R chars) = chars := by
  have hsig := railEncode_sigma hR chars
  have hlen : (railEncode R chars).length = chars.length := by
    rw [hsig, List.length_map, railSigma_length hR]
  rw [railDecode_eq hR (railEncode R chars), hlen]
  conv_rhs => rw [← range_map_getD chars '\x00']
  apply List.map_congr_left
  intro i hi
  have hi' : i < chars.length := List.mem_range.mp hi
  obtain ⟨hget, hpos⟩ := @railSigma_getD R chars.length i hR hi'
  rw [hsig]
  have hplt : railPos R chars.length i < (railSigma R chars.length).length := by
    rw [railSigma_length hR]
    exact hpos
  have hidx : (railSigma R chars.length)[railPos R chars.length i] = i := by
    rw [List.getD_eq_getElem?_getD, List.getElem?_eq_getElem hplt] at hget
    simpa using hget
  rw [List.getD_eq_getElem?_getD, List.getElem?_map,
    List.getElem?_eq_getElem hplt, hidx]
  rfl

theorem string_mk_toList (s : String) : String.mk s.toList = s :=
  rfl

theorem rail_fence_encode_def (rails : Int) (s : String)
    (h : ¬ s.toList.length = 0) :
    rail_fence_process rails .Encode s
      = String.mk (railEncode ((rails.toNat).max 2) s.toList) := by
  unfold rail_fence_process
  rw [if_neg h]

theorem rail_fence_decode_def (rails : Int) (s : String)
    (h : ¬ s.toList.length = 0) :
    rail_fence_process rails .Decode s
      = String.mk (railDecode ((rails.toNat).max 2) s.toList) := by
  unfold rail_fence_process
  rw [if_neg h]

/-- C10: rail fence decode inverts rail fence encode — for every rail-count
setting (an arbitrary `i32`, clamped to at least 2 inside `process`) and every
input string, decoding the encoding returns the input. -/
theorem claim_C10_rail_fence_roundtrip (rails : Int) (input : String) :
    rail_fence_process rails .Decode (rail_fence_process rails .Encode input)
      = input := by
  have hR : 2 ≤ (rails.toNat).max 2 := Nat.le_max_right _ 2
  by_cases hnil : input.toList.length = 0
  · have hempty : input = "" := by
      have h0 : input.toList = [] := List.length_eq_zero.mp hnil
      cases input with
      | mk data =>
        have hdata : data = [] := h0
        rw [hdata]
    subst hempty
    rfl
  · rw [rail_fence_encode_def rails input hnil]
    have hlen : (railEncode ((rails.toNat).max 2) input.toList).length
        = input.toList.length := by
      rw [railEncode_sigma hR, List.length_map, railSigma_length hR]
    have h2 : ¬ (String.mk (railEncode ((rails.toNat).max 2) input.toList)).toList.length = 0 := by
      show ¬ (railEncode ((rails.toNat).max 2) input.toList).length = 0
      rw [hlen]
      exact hnil
    rw [rail_fence_decode_def rails _ h2]
    show String.mk (railDecode ((rails.toNat).max 2)
      (railEncode ((rails.toNat).max 2) input.toList)) = input
    rw [railDecode_railEncode hR, string_mk_toList]

end YuriCypher
